import Mathlib

/-!
# Verification of the YAO Othello engine (`src/yao.cpp`)

This file gives a shallow embedding, in Lean 4, of the rule engine
(`Core`), the evaluator and search (`Engine`) of the YAO Othello
program, and proves (or refutes) the specification claims about them.

Conventions of the embedding:

* C++ `uint64` bitboards are modelled as `Nat`; left shifts are reduced
  modulo `2 ^ 64` (`&&& UINT64_MAX`) exactly where the machine discards
  high bits, and `~x` on a 64-bit value is `x ^^^ UINT64_MAX`.
  Theorems that quantify over snapshots carry the hypothesis `wf64 s`
  (both boards below `2 ^ 64`), which every C++ `GameState` satisfies
  by the type of its fields.
* C++ `int` is modelled as `Int`; every arithmetic operation performed
  on these values by the translated functions stays far inside the
  32-bit range, so no wrap-around modelling is needed.  `INT_MIN` and
  `INT_MAX` are the concrete two's-complement bounds used by
  `std::numeric_limits<int>`.
* The two `while` loops of the source (the ray walk in
  `get_flips_in_direction` and the popcount loop in `count_discs`) are
  written with an explicit fuel argument so that they are structurally
  recursive and kernel-computable.  In both cases the fuel provably
  never runs out for the values the program manipulates: a ray walk
  from a 64-bit mask goes to zero after at most 64 shifts (a right
  shift strictly decreases a nonzero value, a left shift strictly
  increases the least set bit, and bits at positions `≥ 64` are cut
  off), and the popcount loop clears one bit per iteration, so at most
  `board` iterations happen.  `countLoop_eq_of_le` below makes the
  latter fuel-independence precise.
* The game-tree search functions recurse on a genuine well-founded
  measure (`3 * depth + (2 - pass_count)`), mirroring the C++
  termination argument: a forced pass keeps the depth but increments
  `pass_count`, and two consecutive passes make the position terminal.
-/

/-- Two's-complement minimum of a 32-bit `int`
(`std::numeric_limits<int>::min()`). -/
def INT_MIN : Int := -2147483648

/-- Two's-complement maximum of a 32-bit `int`
(`std::numeric_limits<int>::max()`). -/
def INT_MAX : Int := 2147483647

/-- All 64 bits set: the value of `~0ULL`; used to cut left shifts and
complements down to 64 bits, as the C++ `uint64` type does. -/
def UINT64_MAX : Nat := 0xFFFFFFFFFFFFFFFF

/-- `enum class Player` of the source: Black always starts. -/
inductive Player
  | Black
  | White
deriving DecidableEq

open Player

/-- `switch_player` of the source. -/
def switch_player (p : Player) : Player :=
  if p = Black then White else Black

/-- `struct GameState` of the source: two bitboards, the player to
move, the consecutive-pass counter and the diagnostic last-move
string. -/
structure GameState where
  black_discs : Nat
  white_discs : Nat
  current_player : Player
  pass_count : Nat
  last_move_coord : String
deriving DecidableEq

/-- The `GameState()` constructor: black on D4 (27) and E5 (36), white
on E4 (28) and D5 (35), Black to move. -/
def initialState : GameState :=
  { black_discs := (1 <<< 27) ||| (1 <<< 36)
    white_discs := (1 <<< 28) ||| (1 <<< 35)
    current_player := Black
    pass_count := 0
    last_move_coord := "START" }

/-- The `COORDS` table of the source (index `0` = A1 … index `63` = H8). -/
def COORDS : List String :=
  ["A1","B1","C1","D1","E1","F1","G1","H1",
   "A2","B2","C2","D2","E2","F2","G2","H2",
   "A3","B3","C3","D3","E3","F3","G3","H3",
   "A4","B4","C4","D4","E4","F4","G4","H4",
   "A5","B5","C5","D5","E5","F5","G5","H5",
   "A6","B6","C6","D6","E6","F6","G6","H6",
   "A7","B7","C7","D7","E7","F7","G7","H7",
   "A8","B8","C8","D8","E8","F8","G8","H8"]

/-- `index_to_coord` of the source (with `index : Nat`, so only the
upper bound check remains). -/
def index_to_coord (index : Nat) : String :=
  if index > 63 then "XX" else COORDS.getD index "XX"

/-- Both bitboards of a snapshot fit in 64 bits.  This is a typing
fact of the C++ `GameState` (its fields are `uint64`), made explicit
because the embedding stores the boards as `Nat`. -/
def wf64 (s : GameState) : Prop :=
  s.black_discs < 2 ^ 64 ∧ s.white_discs < 2 ^ 64

instance (s : GameState) : Decidable (wf64 s) := by
  unfold wf64; infer_instance

namespace Core

/-- `Core::DIRECTIONS`: index deltas of the 8 ray directions. -/
def DIRECTIONS : List Int := [-9, -8, -7, -1, 1, 7, 8, 9]

/-- `Core::MASK_A` (clears column A; the source uses it for right
shifts). -/
def MASK_A : Nat := 0xFEFEFEFEFEFEFEFE

/-- `Core::MASK_H` (clears column H; the source uses it for left
shifts). -/
def MASK_H : Nat := 0x7F7F7F7F7F7F7F7F

/-- One shift step of `get_flips_in_direction`:
`current = (current & mask) >> (-direction)` for a negative direction,
`current = (current & mask) << direction` for a positive one.  The
left shift is reduced to 64 bits as C++ `uint64` arithmetic does. -/
def shiftDir (current : Nat) (direction : Int) (mask : Nat) : Nat :=
  if direction < 0 then (current &&& mask) >>> (-direction).toNat
  else ((current &&& mask) <<< direction.toNat) &&& UINT64_MAX

/-- The `while` loop of `get_flips_in_direction`, with fuel.  The loop
repeats `flipped |= current; current = shift(current)` while
`current != 0 && (current & opp_board) != 0`, and returns the final
`(current, flipped)` pair.  Fuel 64 suffices for any 64-bit input
because every shift either strictly decreases the value (right shift)
or strictly increases its least set bit within 64 bits (left shift),
so after at most 64 steps `current = 0`. -/
def flipsLoop (opp_board : Nat) (direction : Int) (mask : Nat) :
    Nat → Nat → Nat → Nat × Nat
  | 0, current, flipped => (current, flipped)
  | fuel + 1, current, flipped =>
    if current ≠ 0 ∧ current &&& opp_board ≠ 0 then
      flipsLoop opp_board direction mask fuel
        (shiftDir current direction mask) (flipped ||| current)
    else (current, flipped)

/-- `Core::get_flips_in_direction`. -/
def get_flips_in_direction (move_mask own_board opp_board : Nat)
    (direction : Int) (mask : Nat) : Nat :=
  let start := shiftDir move_mask direction mask
  let r := flipsLoop opp_board direction mask 64 start 0
  if r.1 ≠ 0 ∧ r.1 &&& own_board ≠ 0 then r.2 else 0

/-- The per-direction wrap-mask selection that `generate_legal_moves`
and `get_flips_for_move` both perform:
default mask `0xFF…FF`, `MASK_H` for a positive non-vertical
direction, `MASK_A` for a negative non-vertical one. -/
def wrapMask (direction : Int) : Nat :=
  if direction % 8 ≠ 0 then
    (if direction > 0 then MASK_H else MASK_A)
  else UINT64_MAX

/-- The inner direction loop shared by `generate_legal_moves` (its
`total_flips` accumulation) and `get_flips_for_move`: the union of
`get_flips_in_direction` over the 8 directions, each with its wrap
mask. -/
def flipsAllDirections (move_mask own_board opp_board : Nat) : Nat :=
  DIRECTIONS.foldl
    (fun total_flips direction =>
      total_flips |||
        get_flips_in_direction move_mask own_board opp_board direction
          (wrapMask direction)) 0

/-- `Core::generate_legal_moves`: for every empty cell `i`, mark it
legal when the 8-direction flip set is nonempty. -/
def generate_legal_moves (state : GameState) : Nat :=
  let own_board :=
    if state.current_player = Black then state.black_discs else state.white_discs
  let opp_board :=
    if state.current_player = Black then state.white_discs else state.black_discs
  let empty_board := (own_board ||| opp_board) ^^^ UINT64_MAX
  (List.range 64).foldl
    (fun legal_moves i =>
      let move_mask := 1 <<< i
      if move_mask &&& empty_board ≠ 0 then
        (if flipsAllDirections move_mask own_board opp_board ≠ 0 then
          legal_moves ||| move_mask
        else legal_moves)
      else legal_moves) 0

/-- `Core::get_flips_for_move`. -/
def get_flips_for_move (state : GameState) (move_index : Nat) : Nat :=
  let move_mask := 1 <<< move_index
  let own_board :=
    if state.current_player = Black then state.black_discs else state.white_discs
  let opp_board :=
    if state.current_player = Black then state.white_discs else state.black_discs
  flipsAllDirections move_mask own_board opp_board

/-- `Core::apply_move`: place the mover's disc, recolor the flips,
switch the player and reset the pass counter. -/
def apply_move (state : GameState) (move_index : Nat) : GameState :=
  let move_mask := 1 <<< move_index
  let flips := get_flips_for_move state move_index
  if state.current_player = Black then
    { state with
      black_discs := (state.black_discs ||| move_mask) ||| flips
      white_discs := state.white_discs &&& (flips ^^^ UINT64_MAX)
      current_player := switch_player state.current_player
      pass_count := 0
      last_move_coord := index_to_coord move_index }
  else
    { state with
      white_discs := (state.white_discs ||| move_mask) ||| flips
      black_discs := state.black_discs &&& (flips ^^^ UINT64_MAX)
      current_player := switch_player state.current_player
      pass_count := 0
      last_move_coord := index_to_coord move_index }

/-- `Core::apply_pass`. -/
def apply_pass (state : GameState) : GameState :=
  { state with
    current_player := switch_player state.current_player
    pass_count := state.pass_count + 1
    last_move_coord := "PASS" }

/-- The `while (board > 0) { board &= board - 1; count++; }` loop of
`Core::count_discs`, with fuel.  Each iteration clears the least set
bit, so the loop runs `popcount board ≤ board` times and fuel `board`
is always enough (`countLoop_eq_of_le`). -/
def countLoop : Nat → Nat → Nat
  | 0, _ => 0
  | fuel + 1, board =>
    if board > 0 then countLoop fuel (board &&& (board - 1)) + 1 else 0

/-- `Core::count_discs` (popcount). -/
def count_discs (board : Nat) : Nat :=
  countLoop board board

/-- `Core::is_terminal`: full board, two consecutive passes, a
wiped-out color, or no move for either side. -/
def is_terminal (state : GameState) (black_legal white_legal : Nat) : Bool :=
  let total_discs := count_discs state.black_discs + count_discs state.white_discs
  if total_discs = 64 then true
  else if state.pass_count ≥ 2 then true
  else if count_discs state.black_discs = 0 ∨ count_discs state.white_discs = 0 then true
  else if count_discs black_legal = 0 ∧ count_discs white_legal = 0 ∧ total_discs < 64 then
    true
  else false

end Core

namespace Engine

/-- `Engine::POSITION_WEIGHTS`, reproduced verbatim. -/
def POSITION_WEIGHTS : List Int :=
  [200, -20,  10,   5,   5,  10, -20, 200,
   -20, -30,  -5,  -5,  -5,  -5, -30, -20,
    10,  -5,   2,   2,   2,   2,  -5,  10,
     5,  -5,   2,   1,   1,   2,  -5,   5,
     5,  -5,   2,   1,   1,   2,  -5,   5,
    10,  -5,   2,   2,   2,   2,  -5,  10,
   -20, -30,  -5,  -5,  -5,  -5, -30, -20,
   200, -20,  10,   5,   5,  10, -20, 200]

/-- `Engine::evaluate`.  The per-cell positional loop accumulates the
`(ai_score, opp_score)` pair exactly as the C++ loop mutates the two
variables; the final disc-differential term reproduces the
`(int)(disc_diff * phase_weight)` double computation: the products by
`0.5`, `2.0` and `5.0` of an integer in `[-64, 64]` are exact in
`double`, and the cast truncates toward zero (`Int.tdiv`). -/
def evaluate (state : GameState) (ai_player : Player) : Int :=
  let ai_legal := Core.generate_legal_moves state
  let next_state := { state with current_player := switch_player state.current_player }
  let opp_legal := Core.generate_legal_moves next_state
  let ai_mobility : Int := Core.count_discs ai_legal
  let opp_mobility : Int := Core.count_discs opp_legal
  let scores0 : Int × Int := (ai_mobility * 5, opp_mobility * 5)
  let scores1 :=
    (List.range 64).foldl
      (fun (scores : Int × Int) i =>
        let mask := 1 <<< i
        if state.black_discs &&& mask ≠ 0 then
          (if ai_player = Black then
            (scores.1 + POSITION_WEIGHTS.getD i 0, scores.2)
          else
            (scores.1, scores.2 + POSITION_WEIGHTS.getD i 0))
        else if state.white_discs &&& mask ≠ 0 then
          (if ai_player = White then
            (scores.1 + POSITION_WEIGHTS.getD i 0, scores.2)
          else
            (scores.1, scores.2 + POSITION_WEIGHTS.getD i 0))
        else scores) scores0
  let black_discs : Int := Core.count_discs state.black_discs
  let white_discs : Int := Core.count_discs state.white_discs
  let disc_diff : Int :=
    if ai_player = Black then black_discs - white_discs else white_discs - black_discs
  let total_discs : Int := black_discs + white_discs
  let phase_term : Int :=
    if total_discs ≤ 20 then Int.tdiv disc_diff 2
    else if total_discs ≤ 40 then disc_diff * 2
    else disc_diff * 5
  (scores1.1 + phase_term) - scores1.2


/-- `Engine::minimax_ab`.  The two `for` loops over the 64 cells are
folds whose accumulator carries `(max_eval, alpha, broken)` (resp.
`(min_eval, beta, broken)`): once the `beta <= alpha` cutoff fires the
flag is set and the remaining children are skipped, exactly like the
C++ `break`. -/
def minimax_ab (state : GameState) (depth : Nat) (alpha beta : Int)
    (maximizing_player : Bool) (ai_player : Player) : Int :=
  let legal_moves_mask := Core.generate_legal_moves state
  let opponent_state := { state with current_player := switch_player state.current_player }
  let opponent_legal_moves := Core.generate_legal_moves opponent_state
  if hterm : depth = 0 ∨ Core.is_terminal state legal_moves_mask opponent_legal_moves = true then
    evaluate state ai_player
  else if hpass : Core.count_discs legal_moves_mask = 0 then
    minimax_ab (Core.apply_pass state) depth alpha beta (!maximizing_player) ai_player
  else if maximizing_player then
    ((List.range 64).foldl
      (fun (acc : Int × Int × Bool) i =>
        if acc.2.2 then acc
        else if legal_moves_mask &&& (1 <<< i) ≠ 0 then
          let e := minimax_ab (Core.apply_move state i) (depth - 1) acc.2.1 beta false ai_player
          let max_eval := max acc.1 e
          let alpha2 := max acc.2.1 max_eval
          (max_eval, alpha2, beta ≤ alpha2)
        else acc) (INT_MIN, alpha, false)).1
  else
    ((List.range 64).foldl
      (fun (acc : Int × Int × Bool) i =>
        if acc.2.2 then acc
        else if legal_moves_mask &&& (1 <<< i) ≠ 0 then
          let e := minimax_ab (Core.apply_move state i) (depth - 1) alpha acc.2.1 true ai_player
          let min_eval := min acc.1 e
          let beta2 := min acc.2.1 min_eval
          (min_eval, beta2, beta2 ≤ alpha)
        else acc) (INT_MAX, beta, false)).1
termination_by 3 * depth + (2 - state.pass_count)
decreasing_by
  · simp only [not_or, Bool.not_eq_true] at hterm
    have hpc : state.pass_count < 2 := by
      have h2 := hterm.2
      unfold Core.is_terminal at h2
      by_cases hp : state.pass_count ≥ 2
      · by_cases ht : Core.count_discs state.black_discs +
            Core.count_discs state.white_discs = 64 <;>
          simp [ht, hp] at h2
      · omega
    simp only [Core.apply_pass]
    omega
  · simp only [not_or] at hterm
    simp only [Core.apply_move]
    split <;> simp <;> omega
  · simp only [not_or] at hterm
    simp only [Core.apply_move]
    split <;> simp <;> omega

/-- `Engine::find_best_move`: full-window scores for every legal move
in ascending index order, keeping the first strict improvement;
`-1` is the pass sentinel, `-2` the (unreachable) initial "invalid"
index. -/
def find_best_move (state : GameState) (depth : Nat) : Int :=
  let legal_moves_mask := Core.generate_legal_moves state
  if Core.count_discs legal_moves_mask = 0 then -1
  else
    ((List.range 64).foldl
      (fun (acc : Int × Int) i =>
        if legal_moves_mask &&& (1 <<< i) ≠ 0 then
          let current_eval :=
            minimax_ab (Core.apply_move state i) (depth - 1) INT_MIN INT_MAX false
              state.current_player
          (if current_eval > acc.2 then ((i : Int), current_eval) else acc)
        else acc) (-2, INT_MIN)).1

/-- Reference definition for claim C2, following the spec's words: the
unpruned minimax traversal of the same game tree — same leaf rule,
same forced-pass rule (a pass keeps the depth and flips `maximizing`),
children visited in ascending index order, but no alpha-beta window
and no cutoff. -/
def minimax_plain (state : GameState) (depth : Nat)
    (maximizing_player : Bool) (ai_player : Player) : Int :=
  let legal_moves_mask := Core.generate_legal_moves state
  let opponent_state := { state with current_player := switch_player state.current_player }
  let opponent_legal_moves := Core.generate_legal_moves opponent_state
  if hterm : depth = 0 ∨ Core.is_terminal state legal_moves_mask opponent_legal_moves = true then
    evaluate state ai_player
  else if hpass : Core.count_discs legal_moves_mask = 0 then
    minimax_plain (Core.apply_pass state) depth (!maximizing_player) ai_player
  else if maximizing_player then
    (List.range 64).foldl
      (fun acc i =>
        if legal_moves_mask &&& (1 <<< i) ≠ 0 then
          max acc (minimax_plain (Core.apply_move state i) (depth - 1) false ai_player)
        else acc) INT_MIN
  else
    (List.range 64).foldl
      (fun acc i =>
        if legal_moves_mask &&& (1 <<< i) ≠ 0 then
          min acc (minimax_plain (Core.apply_move state i) (depth - 1) true ai_player)
        else acc) INT_MAX
termination_by 3 * depth + (2 - state.pass_count)
decreasing_by
  · simp only [not_or, Bool.not_eq_true] at hterm
    have hpc : state.pass_count < 2 := by
      have h2 := hterm.2
      unfold Core.is_terminal at h2
      by_cases hp : state.pass_count ≥ 2
      · by_cases ht : Core.count_discs state.black_discs +
            Core.count_discs state.white_discs = 64 <;>
          simp [ht, hp] at h2
      · omega
    simp only [Core.apply_pass]
    omega
  · simp only [not_or] at hterm
    simp only [Core.apply_move]
    split <;> simp <;> omega
  · simp only [not_or] at hterm
    simp only [Core.apply_move]
    split <;> simp <;> omega

/-- Reference definition for claim C3, following the spec's words:
identical to `evaluate` except that the two mobility counts are
attributed per evaluated color — the count credited to `ai_player` is
generated on a copy of the snapshot whose `current_player` is set to
`ai_player`, the debited one on a copy set to the other color,
independently of whose turn it is in `state`. -/
def evaluate_spec_mobility (state : GameState) (ai_player : Player) : Int :=
  let ai_legal := Core.generate_legal_moves { state with current_player := ai_player }
  let opp_legal :=
    Core.generate_legal_moves { state with current_player := switch_player ai_player }
  let ai_mobility : Int := Core.count_discs ai_legal
  let opp_mobility : Int := Core.count_discs opp_legal
  let scores0 : Int × Int := (ai_mobility * 5, opp_mobility * 5)
  let scores1 :=
    (List.range 64).foldl
      (fun (scores : Int × Int) i =>
        let mask := 1 <<< i
        if state.black_discs &&& mask ≠ 0 then
          (if ai_player = Black then
            (scores.1 + POSITION_WEIGHTS.getD i 0, scores.2)
          else
            (scores.1, scores.2 + POSITION_WEIGHTS.getD i 0))
        else if state.white_discs &&& mask ≠ 0 then
          (if ai_player = White then
            (scores.1 + POSITION_WEIGHTS.getD i 0, scores.2)
          else
            (scores.1, scores.2 + POSITION_WEIGHTS.getD i 0))
        else scores) scores0
  let black_discs : Int := Core.count_discs state.black_discs
  let white_discs : Int := Core.count_discs state.white_discs
  let disc_diff : Int :=
    if ai_player = Black then black_discs - white_discs else white_discs - black_discs
  let total_discs : Int := black_discs + white_discs
  let phase_term : Int :=
    if total_discs ≤ 20 then Int.tdiv disc_diff 2
    else if total_discs ≤ 40 then disc_diff * 2
    else disc_diff * 5
  (scores1.1 + phase_term) - scores1.2

end Engine

namespace Spec

/-- The 8 unit steps (row delta, column delta) of the spec's ray
directions, in the same order as `Core.DIRECTIONS` (each index delta
`8 * dr + dc` matches). -/
def DIRECTION_STEPS : List (Int × Int) :=
  [(-1, -1), (-1, 0), (-1, 1), (0, -1), (0, 1), (1, -1), (1, 0), (1, 1)]

/-- A coordinate pair lies on the 8×8 grid. -/
def onBoard (r c : Int) : Prop :=
  0 ≤ r ∧ r < 8 ∧ 0 ≤ c ∧ c < 8

instance (r c : Int) : Decidable (onBoard r c) := by
  unfold onBoard; infer_instance

/-- Reference definition for claim C1, following the spec's words: the
capture walk along one ray of the 8×8 grid, stopping at the board
edge.  Starting from an on-board cell, it traverses opponent discs; if
the traversal reaches a mover's disc while still on the board, the
traversed opponent cells are the captures, otherwise (edge reached or
empty cell) nothing is captured.  Fuel 8 covers the longest possible
ray. -/
def specWalk (own_board opp_board : Nat) (dr dc : Int) :
    Nat → Int → Int → Nat → Nat
  | 0, _, _, _ => 0
  | fuel + 1, r, c, acc =>
    if onBoard r c then
      let i := (r * 8 + c).toNat
      if opp_board.testBit i then
        specWalk own_board opp_board dr dc fuel (r + dr) (c + dc) (acc ||| (1 <<< i))
      else if own_board.testBit i then acc
      else 0
    else 0

/-- Reference definition for claim C1: all discs captured by playing
at index `move_index`, as the union of the 8 edge-stopping ray
walks. -/
def specFlipsForMove (state : GameState) (move_index : Nat) : Nat :=
  let own_board :=
    if state.current_player = Black then state.black_discs else state.white_discs
  let opp_board :=
    if state.current_player = Black then state.white_discs else state.black_discs
  let r : Int := move_index / 8
  let c : Int := move_index % 8
  DIRECTION_STEPS.foldl
    (fun acc step =>
      acc ||| specWalk own_board opp_board step.1 step.2 8 (r + step.1) (c + step.2) 0) 0

/-- Reference definition for claim C1: the legal-move set obtained by
edge-stopping ray walks — an empty cell is legal iff some ray captures
at least one disc. -/
def specLegalMoves (state : GameState) : Nat :=
  let own_board :=
    if state.current_player = Black then state.black_discs else state.white_discs
  let opp_board :=
    if state.current_player = Black then state.white_discs else state.black_discs
  (List.range 64).foldl
    (fun legal_moves i =>
      if own_board.testBit i ∨ opp_board.testBit i then legal_moves
      else if specFlipsForMove state i ≠ 0 then legal_moves ||| (1 <<< i)
      else legal_moves) 0

end Spec

/-! ## Auxiliary definitions of the verification

Named forms of the loop bodies and score components of the embedding
(used so the theorems below can speak about single iterations), the
bit-level predicates of the proofs, the reachability relation, and the
concrete snapshots that serve as test inputs. -/

namespace BitFacts

/-- `x` is a power of two or zero: the shape of the `current` cursor
in the ray walk. -/
def IsSingle (x : Nat) : Prop := x = 0 ∨ ∃ k, x = 2 ^ k

end BitFacts

namespace CountFacts

/-- Structural binary popcount used to bridge `count_discs` to
per-bit counting. -/
def popBits : Nat → Nat → Nat
  | 0, _ => 0
  | k + 1, n => popBits k (n / 2) + n % 2

end CountFacts

namespace RuleFacts

open Core

/-- The board of the side to move (the `own_board` selection repeated
in `generate_legal_moves` and `get_flips_for_move`). -/
def own_of (s : GameState) : Nat :=
  if s.current_player = Black then s.black_discs else s.white_discs

/-- The board of the side not to move. -/
def opp_of (s : GameState) : Nat :=
  if s.current_player = Black then s.white_discs else s.black_discs

/-- The `empty_board` value of `generate_legal_moves`. -/
def empty_of (s : GameState) : Nat :=
  (own_of s ||| opp_of s) ^^^ UINT64_MAX

/-- Every set bit of `x` is a set bit of `y`. -/
def SubsetBits (x y : Nat) : Prop :=
  ∀ i, x.testBit i = true → y.testBit i = true

/-- One iteration of the cell scan of `generate_legal_moves`. -/
def genStep (s : GameState) (legal_moves : Nat) (i : Nat) : Nat :=
  if (1 <<< i) &&& empty_of s ≠ 0 then
    (if flipsAllDirections (1 <<< i) (own_of s) (opp_of s) ≠ 0 then
      legal_moves ||| (1 <<< i)
    else legal_moves)
  else legal_moves

/-- `board_of s p`: the bitboard of color `p` in snapshot `s`. -/
def board_of (s : GameState) (p : Player) : Nat :=
  if p = Black then s.black_discs else s.white_discs

/-- Snapshots reachable from the start state through the two core
transformations (moves applied only at legal cells). -/
inductive Reachable : GameState → Prop
  | init : Reachable initialState
  | move {s : GameState} {m : Nat} : Reachable s →
      (generate_legal_moves s).testBit m = true → Reachable (apply_move s m)
  | pass {s : GameState} : Reachable s → Reachable (apply_pass s)

end RuleFacts

namespace EvalFacts

open Core Engine

/-- The mobility count the evaluator credits to its `ai_score`: the
legal moves of `state.current_player` — note the perspective argument
plays no role. -/
def currentMobility (state : GameState) : Int :=
  Core.count_discs (Core.generate_legal_moves state)

/-- The mobility count the evaluator debits as `opp_score`: the legal
moves of the color opposite `state.current_player`. -/
def opponentMobility (state : GameState) : Int :=
  Core.count_discs
    (Core.generate_legal_moves
      { state with current_player := switch_player state.current_player })

/-- Per-cell positional contribution of a black-occupied cell. -/
def blackTerm (state : GameState) (i : Nat) : Int :=
  if state.black_discs &&& (1 <<< i) ≠ 0 then POSITION_WEIGHTS.getD i 0 else 0

/-- Per-cell positional contribution of a white-occupied cell that is
not (also) black-occupied — mirroring the `else if` of the source. -/
def whiteOnlyTerm (state : GameState) (i : Nat) : Int :=
  if state.black_discs &&& (1 <<< i) ≠ 0 then 0
  else if state.white_discs &&& (1 <<< i) ≠ 0 then POSITION_WEIGHTS.getD i 0
  else 0

def posSumBlack (state : GameState) : Int :=
  (List.range 64).foldl (fun acc i => acc + blackTerm state i) 0

def posSumWhiteOnly (state : GameState) : Int :=
  (List.range 64).foldl (fun acc i => acc + whiteOnlyTerm state i) 0

/-- The positional sum attributed to color `p` by the evaluator. -/
def posFor (state : GameState) (p : Player) : Int :=
  if p = Black then posSumBlack state else posSumWhiteOnly state

/-- The phase-weighted disc-differential term of the evaluator. -/
def discTerm (state : GameState) (p : Player) : Int :=
  let black_discs : Int := Core.count_discs state.black_discs
  let white_discs : Int := Core.count_discs state.white_discs
  let disc_diff : Int :=
    if p = Black then black_discs - white_discs else white_discs - black_discs
  let total_discs : Int := black_discs + white_discs
  if total_discs ≤ 20 then Int.tdiv disc_diff 2
  else if total_discs ≤ 40 then disc_diff * 2
  else disc_diff * 5

end EvalFacts

namespace SearchFacts

open Core Engine

/-- One iteration of the maximizing alpha-beta loop of `minimax_ab`,
as a named function: carry `(max_eval, alpha, broken)`, call the child
with the current alpha, raise, and set the `beta ≤ alpha` cutoff
flag. -/
def abMaxStep (β : Int) (P : Nat → Prop) [DecidablePred P] (f : Nat → Int → Int)
    (acc : Int × Int × Bool) (i : Nat) : Int × Int × Bool :=
  if acc.2.2 then acc
  else if P i then
    (max acc.1 (f i acc.2.1),
      max acc.2.1 (max acc.1 (f i acc.2.1)),
      decide (β ≤ max acc.2.1 (max acc.1 (f i acc.2.1))))
  else acc

/-- One iteration of the minimizing alpha-beta loop of `minimax_ab`:
carry `(min_eval, beta, broken)` with the fixed alpha `α₀`. -/
def abMinStep (α₀ : Int) (P : Nat → Prop) [DecidablePred P] (f : Nat → Int → Int)
    (acc : Int × Int × Bool) (i : Nat) : Int × Int × Bool :=
  if acc.2.2 then acc
  else if P i then
    (min acc.1 (f i acc.2.1),
      min acc.2.1 (min acc.1 (f i acc.2.1)),
      decide (min acc.2.1 (min acc.1 (f i acc.2.1)) ≤ α₀))
  else acc

/-- The score `find_best_move` assigns to the legal move `i`: the
full-window child search, minimizing next, from the mover's
perspective. -/
def rootScore (s : GameState) (d : Nat) (i : Nat) : Int :=
  Engine.minimax_ab (Core.apply_move s i) (d - 1) INT_MIN INT_MAX false s.current_player

/-- One iteration of the root scan of `find_best_move`. -/
def fbStep (s : GameState) (d : Nat) (acc : Int × Int) (i : Nat) : Int × Int :=
  if Core.generate_legal_moves s &&& (1 <<< i) ≠ 0 then
    (if rootScore s d i > acc.2 then ((i : Int), rootScore s d i) else acc)
  else acc

end SearchFacts


/-! ## Concrete snapshots used as test inputs -/

/-- Black on H2 (bit 15), white on A2 (bit 8), Black to move: the
southwest (+7) ray from B1 wraps from column A back to column H and
"captures" A2 against the mover's own wrapped disc. -/
def wrapState : GameState := ⟨1 <<< 15, 1 <<< 8, Player.Black, 0, "START"⟩

/-- Black on A1 and B1 (bits 0, 1), white on C1 (bit 2), White to
move: White has no legal move while Black has exactly one (D1), so
the two colors' mobilities differ and White is forced to pass. -/
def stuckWhiteState : GameState := ⟨3, 4, Player.White, 0, "START"⟩

/-- The octant-symmetric closed form of the positional table: the
weight of a cell depends only on its distances to the nearer rank and
file edges, symmetrically. -/
def quadrantWeight (r c : Nat) : Int :=
  let re := min r (7 - r)
  let ce := min c (7 - c)
  if re = 0 ∧ ce = 0 then 200
  else if (re = 0 ∧ ce = 1) ∨ (re = 1 ∧ ce = 0) then -20
  else if re = 1 ∧ ce = 1 then -30
  else if (re = 0 ∧ ce = 2) ∨ (re = 2 ∧ ce = 0) then 10
  else if re = 0 ∨ ce = 0 then 5
  else if re = 1 ∨ ce = 1 then -5
  else if re = 2 ∨ ce = 2 then 2
  else 1


/-! ## Bit-level toolkit

Generic facts about `Nat` viewed as a 64-bit machine word: recovering
`x < 2 ^ 64` from the absence of high bits, single-bit masks, and the
behaviour of the fuelled popcount loop. -/

namespace Engine

/-- `is_terminal … = false` forces `pass_count < 2` (clause 2 of
`Core::is_terminal`). -/
theorem pass_count_lt_of_not_terminal {s : GameState} {a b : Nat}
    (h : Core.is_terminal s a b = false) : s.pass_count < 2 := by
  unfold Core.is_terminal at h
  by_cases hp : s.pass_count ≥ 2
  · by_cases h64 : Core.count_discs s.black_discs + Core.count_discs s.white_discs = 64 <;>
      simp [h64, hp] at h
  · omega

end Engine

namespace BitFacts

/-- A number all of whose set bits lie below `n` is below `2 ^ n`. -/
theorem lt_two_pow_of_testBit_eq_false {x n : Nat}
    (h : ∀ i, n ≤ i → x.testBit i = false) : x < 2 ^ n := by
  have hx : x = x % 2 ^ n := by
    apply Nat.eq_of_testBit_eq
    intro i
    rcases lt_or_le i n with hi | hi
    · simp [Nat.testBit_mod_two_pow, hi]
    · simp [Nat.testBit_mod_two_pow, Nat.not_lt_of_le hi, h i hi]
  calc x = x % 2 ^ n := hx
    _ < 2 ^ n := Nat.mod_lt _ (Nat.pos_pow_of_pos n (by norm_num))

theorem testBit_eq_false_of_lt_two_pow {x n i : Nat}
    (hx : x < 2 ^ n) (hi : n ≤ i) : x.testBit i = false := by
  apply Nat.testBit_lt_two_pow
  exact lt_of_lt_of_le hx (Nat.pow_le_pow_right (by norm_num) hi)

/-- `UINT64_MAX` is `2 ^ 64 - 1`. -/
theorem uint64_max_eq : UINT64_MAX = 2 ^ 64 - 1 := by norm_num [UINT64_MAX]

theorem testBit_uint64_max (i : Nat) :
    UINT64_MAX.testBit i = decide (i < 64) := by
  rw [uint64_max_eq, Nat.testBit_two_pow_sub_one]

/-- Intersecting with a single-bit mask keeps the bit or clears
everything. -/
theorem two_pow_and (k : Nat) (m : Nat) :
    (2 ^ k) &&& m = if m.testBit k then 2 ^ k else 0 := by
  apply Nat.eq_of_testBit_eq
  intro i
  rw [Nat.testBit_and, Nat.testBit_two_pow]
  by_cases hik : k = i
  · subst hik
    by_cases hm : m.testBit k <;> simp [hm, Nat.testBit_two_pow, Nat.zero_testBit]
  · by_cases hm : m.testBit k <;> simp [hik, hm, Nat.testBit_two_pow, Nat.zero_testBit]

theorem two_pow_ne_zero (k : Nat) : (2 : Nat) ^ k ≠ 0 :=
  Nat.pos_iff_ne_zero.mp (Nat.two_pow_pos k)

theorem two_pow_and_ne_zero_iff (k m : Nat) :
    ((2 ^ k) &&& m ≠ 0) ↔ m.testBit k = true := by
  rw [two_pow_and]
  by_cases hm : m.testBit k <;> simp [hm, two_pow_ne_zero k]

theorem and_two_pow_ne_zero_iff (k m : Nat) :
    (m &&& (2 ^ k) ≠ 0) ↔ m.testBit k = true := by
  rw [Nat.land_comm]
  exact two_pow_and_ne_zero_iff k m


theorem isSingle_and (x m : Nat) (h : IsSingle x) : IsSingle (x &&& m) := by
  rcases h with h | ⟨k, rfl⟩
  · subst h; left; exact Nat.zero_and m
  · rw [two_pow_and]
    by_cases hm : m.testBit k <;> simp [hm, IsSingle]

theorem isSingle_shiftLeft (x n : Nat) (h : IsSingle x) : IsSingle (x <<< n) := by
  rcases h with h | ⟨k, rfl⟩
  · subst h; left; simp [Nat.shiftLeft_eq]
  · right; exact ⟨k + n, by rw [Nat.shiftLeft_eq, pow_add]⟩

theorem isSingle_shiftRight (x n : Nat) (h : IsSingle x) : IsSingle (x >>> n) := by
  rcases h with h | ⟨k, rfl⟩
  · subst h; left; simp [Nat.shiftRight_eq_div_pow]
  · rw [Nat.shiftRight_eq_div_pow]
    rcases le_or_lt n k with hn | hn
    · right; exact ⟨k - n, Nat.pow_div hn (by norm_num)⟩
    · left; exact Nat.div_eq_of_lt (Nat.pow_lt_pow_right (by norm_num) hn)

end BitFacts

/-! ## The popcount loop -/

namespace CountFacts

open Core

/-- Clearing the least set bit decreases a positive number. -/
theorem and_pred_lt {b : Nat} (hb : 0 < b) : b &&& (b - 1) < b :=
  lt_of_le_of_lt Nat.and_le_right (by omega)

/-- The popcount loop is insensitive to extra fuel once the fuel
covers the value. -/
theorem countLoop_eq_of_le :
    ∀ board fuel : Nat, board ≤ fuel → countLoop fuel board = count_discs board := by
  intro board
  induction board using Nat.strong_induction_on with
  | _ board ih =>
    intro fuel hbf
    rcases Nat.eq_zero_or_pos board with h0 | hpos
    · subst h0
      cases fuel <;> simp [countLoop, count_discs]
    · obtain ⟨f, rfl⟩ : ∃ f, fuel = f + 1 := ⟨fuel - 1, by omega⟩
      have hlt : board &&& (board - 1) < board := and_pred_lt hpos
      have h1 : countLoop (f + 1) board = countLoop f (board &&& (board - 1)) + 1 := by
        simp [countLoop, hpos]
      obtain ⟨m, rfl⟩ : ∃ m, board = m + 1 := ⟨board - 1, by omega⟩
      have h2 : count_discs (m + 1) = countLoop m ((m + 1) &&& (m + 1 - 1)) + 1 := by
        simp [count_discs, countLoop]
      rw [h1, h2, ih _ hlt f (by omega), ih _ hlt m (by omega)]

/-- The unfolding equation of `count_discs` on a positive argument. -/
theorem count_discs_pos_eq {b : Nat} (hb : 0 < b) :
    count_discs b = count_discs (b &&& (b - 1)) + 1 := by
  have hlt := and_pred_lt hb
  obtain ⟨m, rfl⟩ : ∃ m, b = m + 1 := ⟨b - 1, by omega⟩
  have h2 : count_discs (m + 1) = countLoop m ((m + 1) &&& (m + 1 - 1)) + 1 := by
    simp [count_discs, countLoop]
  rw [h2, countLoop_eq_of_le _ m (by omega)]

theorem count_discs_zero : count_discs 0 = 0 := rfl

theorem count_discs_eq_zero_iff (b : Nat) : count_discs b = 0 ↔ b = 0 := by
  constructor
  · intro h
    by_contra hb
    rw [count_discs_pos_eq (Nat.pos_of_ne_zero hb)] at h
    omega
  · intro h; subst h; rfl

/-- Auxiliary doubling identity: `(2a) &&& (2b+1) = 2 (a &&& b)`. -/
theorem land_double_odd (a b : Nat) : (2 * a) &&& (2 * b + 1) = 2 * (a &&& b) := by
  apply Nat.eq_of_testBit_eq
  intro i
  cases i with
  | zero => simp [Nat.testBit_and, Nat.testBit_zero, Nat.mul_mod_right]
  | succ i =>
    have h2a : (2 * a) / 2 = a := by omega
    have h2b : (2 * b + 1) / 2 = b := by omega
    have h2ab : (2 * (a &&& b)) / 2 = a &&& b := by omega
    have hdiv : (2 * a &&& 2 * b + 1) / 2 = (2 * a) / 2 &&& (2 * b + 1) / 2 := by
      apply Nat.eq_of_testBit_eq
      intro j
      simp only [← Nat.testBit_succ, Nat.testBit_and]
    rw [Nat.testBit_succ, Nat.testBit_succ, hdiv, h2a, h2b, h2ab, Nat.testBit_and]

/-- Auxiliary doubling identity: `(2a+1) &&& (2b) = 2 (a &&& b)`. -/
theorem land_odd_double (a b : Nat) : (2 * a + 1) &&& (2 * b) = 2 * (a &&& b) := by
  rw [Nat.land_comm, land_double_odd, Nat.land_comm]

theorem count_discs_double (a : Nat) : count_discs (2 * a) = count_discs a := by
  induction a using Nat.strong_induction_on with
  | _ a ih =>
    rcases Nat.eq_zero_or_pos a with h0 | hpos
    · subst h0; rfl
    · have h1 : (0:Nat) < 2 * a := by omega
      have h2 : 2 * a - 1 = 2 * (a - 1) + 1 := by omega
      rw [count_discs_pos_eq h1, h2, land_double_odd,
        ih (a &&& (a - 1)) (and_pred_lt hpos), ← count_discs_pos_eq hpos]

theorem count_discs_double_add_one (a : Nat) :
    count_discs (2 * a + 1) = count_discs a + 1 := by
  have h1 : (0:Nat) < 2 * a + 1 := by omega
  have h2 : 2 * a + 1 - 1 = 2 * a := by omega
  rw [count_discs_pos_eq h1, h2, land_odd_double, Nat.and_self, count_discs_double]

theorem count_discs_div2 (n : Nat) :
    count_discs n = count_discs (n / 2) + n % 2 := by
  obtain ⟨a, rfl | rfl⟩ : ∃ a, n = 2 * a ∨ n = 2 * a + 1 := ⟨n / 2, by omega⟩
  · have h1 : (2 * a) / 2 = a := by omega
    have h2 : (2 * a) % 2 = 0 := by omega
    rw [count_discs_double, h1, h2]
    omega
  · have h1 : (2 * a + 1) / 2 = a := by omega
    have h2 : (2 * a + 1) % 2 = 1 := by omega
    rw [count_discs_double_add_one, h1, h2]



theorem count_discs_eq_popBits :
    ∀ k n : Nat, n < 2 ^ k → count_discs n = popBits k n := by
  intro k
  induction k with
  | zero =>
    intro n hn
    interval_cases n
    rfl
  | succ k ih =>
    intro n hn
    have hdiv : n / 2 < 2 ^ k := by
      have : 2 ^ (k + 1) = 2 * 2 ^ k := by ring
      omega
    rw [count_discs_div2, popBits, ih _ hdiv]

theorem popBits_eq_countP :
    ∀ k n : Nat, popBits k n = (List.range k).countP (n.testBit ·) := by
  intro k
  induction k with
  | zero => intro n; rfl
  | succ k ih =>
    intro n
    rw [List.range_succ_eq_map, List.countP_cons, List.countP_map, popBits, ih (n / 2)]
    have hcong :
        (List.range k).countP ((n.testBit ·) ∘ Nat.succ) =
          (List.range k).countP ((n / 2).testBit ·) := by
      apply List.countP_congr
      intro i _
      simp [Function.comp, Nat.testBit_succ]
    rw [hcong, Nat.testBit_zero]
    rcases Nat.mod_two_eq_zero_or_one n with h | h <;> simp [h]

/-- `count_discs` of a 64-bit value counts its set bits among
positions `0 … 63`. -/
theorem count_discs_eq_countP {n : Nat} (hn : n < 2 ^ 64) :
    count_discs n = (List.range 64).countP (n.testBit ·) := by
  rw [count_discs_eq_popBits 64 n hn, popBits_eq_countP]

theorem count_discs_le_64 {n : Nat} (hn : n < 2 ^ 64) : count_discs n ≤ 64 := by
  rw [count_discs_eq_countP hn]
  calc (List.range 64).countP (n.testBit ·) ≤ (List.range 64).length :=
        List.countP_le_length _
    _ = 64 := List.length_range 64

/-- Counting split along a disjoint union of predicates. -/
theorem countP_split {l : List Nat} {p q r : Nat → Bool}
    (h : ∀ i ∈ l, p i = (q i || r i) ∧ ¬(q i = true ∧ r i = true)) :
    l.countP p = l.countP q + l.countP r := by
  induction l with
  | nil => simp
  | cons a l ih =>
    have ha := h a (List.mem_cons_self a l)
    have hl : ∀ i ∈ l, p i = (q i || r i) ∧ ¬(q i = true ∧ r i = true) := by
      intro i hi; exact h i (List.mem_cons_of_mem a hi)
    rw [List.countP_cons, List.countP_cons, List.countP_cons, ih hl]
    rcases ha with ⟨hpa, hqr⟩
    cases hq : q a <;> cases hr : r a <;> simp [hq, hr] at hpa hqr ⊢ <;>
      simp [hpa] <;> omega

/-- Disjoint 64-bit values have additive popcounts. -/
theorem count_discs_or_disjoint {a b : Nat} (ha : a < 2 ^ 64) (hb : b < 2 ^ 64)
    (hab : a &&& b = 0) : count_discs (a ||| b) = count_discs a + count_discs b := by
  have hor : a ||| b < 2 ^ 64 := Nat.or_lt_two_pow ha hb
  rw [count_discs_eq_countP hor, count_discs_eq_countP ha, count_discs_eq_countP hb]
  apply countP_split
  intro i _
  constructor
  · exact Nat.testBit_or a b i
  · intro ⟨hqa, hqb⟩
    have : (a &&& b).testBit i = true := by rw [Nat.testBit_and, hqa, hqb]; rfl
    rw [hab, Nat.zero_testBit] at this
    exact Bool.false_ne_true this

/-- A single bit in range counts as one disc. -/
theorem count_discs_two_pow {k : Nat} (hk : k < 64) : count_discs (2 ^ k) = 1 := by
  have h2k : (2:Nat) ^ k < 2 ^ 64 := Nat.pow_lt_pow_right (by norm_num) hk
  rw [count_discs_eq_countP h2k]
  have : ∀ n : Nat, k < n → (List.range n).countP ((2 ^ k).testBit ·) = 1 := by
    intro n
    induction n with
    | zero => omega
    | succ n ih =>
      intro hkn
      rw [List.range_succ, List.countP_append]
      rcases Nat.lt_or_ge k n with hlt | hge
      · have hne : ((2:Nat) ^ k).testBit n = false := by
          simp [Nat.testBit_two_pow]
          omega
        simp [ih hlt, List.countP_cons, hne]
      · have hkn' : k = n := by omega
        subst hkn'
        have hz : (List.range k).countP ((2 ^ k).testBit ·) = 0 := by
          rw [List.countP_eq_zero]
          intro i hi
          rw [List.mem_range] at hi
          simp [Nat.testBit_two_pow]
          omega
        simp [hz, List.countP_cons, Nat.testBit_two_pow]
        omega
  exact this 64 hk

end CountFacts

/-! ## Rule-engine facts

The capture walk only ever flips opponent discs; the legal-move
generator marks exactly the empty cells with a nonempty flip set; and
`apply_move` obeys the disc-conservation laws. -/

namespace RuleFacts

open Core BitFacts CountFacts


theorem subsetBits_or {x y z : Nat} (hx : SubsetBits x z) (hy : SubsetBits y z) :
    SubsetBits (x ||| y) z := by
  intro i hi
  rw [Nat.testBit_or] at hi
  rcases Bool.or_eq_true_iff.mp hi with h | h
  · exact hx i h
  · exact hy i h

theorem subsetBits_zero (y : Nat) : SubsetBits 0 y := by
  intro i hi
  rw [Nat.zero_testBit] at hi
  exact absurd hi Bool.false_ne_true

/-- A value with only sub-64 bits, all inside a 64-bit value, is
itself a 64-bit value. -/
theorem lt_of_subsetBits {x y : Nat} (h : SubsetBits x y) (hy : y < 2 ^ 64) :
    x < 2 ^ 64 := by
  apply lt_two_pow_of_testBit_eq_false
  intro i hi
  by_contra hx
  have hx' : x.testBit i = true := by
    cases hxx : x.testBit i
    · exact absurd hxx hx
    · rfl
  have := h i hx'
  rw [testBit_eq_false_of_lt_two_pow hy hi] at this
  exact Bool.false_ne_true this

theorem eq_zero_of_testBit_eq_false {x : Nat} (h : ∀ i, x.testBit i = false) :
    x = 0 := by
  apply Nat.eq_of_testBit_eq
  intro i
  rw [h i, Nat.zero_testBit]

/-- If `x` and `y` share no bit, `x &&& y = 0`. -/
theorem and_eq_zero_of_disjoint {x y : Nat}
    (h : ∀ i, x.testBit i = true → y.testBit i = false) : x &&& y = 0 := by
  apply eq_zero_of_testBit_eq_false
  intro i
  rw [Nat.testBit_and]
  cases hx : x.testBit i
  · rfl
  · rw [h i hx]; rfl

theorem disjoint_of_and_eq_zero {x y : Nat} (h : x &&& y = 0) :
    ∀ i, x.testBit i = true → y.testBit i = false := by
  intro i hx
  cases hy : y.testBit i
  · rfl
  · have : (x &&& y).testBit i = true := by rw [Nat.testBit_and, hx, hy]; rfl
    rw [h, Nat.zero_testBit] at this
    exact absurd this Bool.false_ne_true

/-- The three wrap masks are 64-bit values. -/
theorem wrapMask_lt (direction : Int) : wrapMask direction < 2 ^ 64 := by
  unfold wrapMask MASK_A MASK_H UINT64_MAX
  split
  · split <;> norm_num
  · norm_num

theorem shiftDir_lt {mask : Nat} (x : Nat) (direction : Int)
    (hm : mask < 2 ^ 64) : shiftDir x direction mask < 2 ^ 64 := by
  unfold shiftDir
  split
  · calc (x &&& mask) >>> (-direction).toNat ≤ x &&& mask := by
          rw [Nat.shiftRight_eq_div_pow]; exact Nat.div_le_self _ _
      _ ≤ mask := Nat.and_le_right
      _ < 2 ^ 64 := hm
  · calc ((x &&& mask) <<< direction.toNat) &&& UINT64_MAX ≤ UINT64_MAX :=
          Nat.and_le_right
      _ < 2 ^ 64 := by norm_num [UINT64_MAX]

theorem shiftDir_single {x : Nat} (direction : Int) (mask : Nat)
    (h : IsSingle x) : IsSingle (shiftDir x direction mask) := by
  unfold shiftDir
  split
  · exact isSingle_shiftRight _ _ (isSingle_and _ _ h)
  · exact isSingle_and _ _ (isSingle_shiftLeft _ _ (isSingle_and _ _ h))

/-- Loop invariant of the ray walk: the cursor stays a single bit, and
the accumulated flips stay inside the opponent's (64-bit) board. -/
theorem flipsLoop_subset {opp_board : Nat} (direction : Int) (mask : Nat)
    (_hopp : opp_board < 2 ^ 64) (_hmask : mask < 2 ^ 64) :
    ∀ fuel current flipped, IsSingle current → SubsetBits flipped opp_board →
      SubsetBits (flipsLoop opp_board direction mask fuel current flipped).2 opp_board := by
  intro fuel
  induction fuel with
  | zero => intro current flipped _ hf; exact hf
  | succ fuel ih =>
    intro current flipped hcur hf
    rw [flipsLoop]
    split
    · rename_i hcond
      rcases hcond with ⟨hne, hand⟩
      rcases hcur with h0 | ⟨k, rfl⟩
      · exact absurd h0 hne
      · have hbit : opp_board.testBit k = true := (two_pow_and_ne_zero_iff k _).mp hand
        apply ih _ _ (shiftDir_single _ _ (Or.inr ⟨k, rfl⟩))
        apply subsetBits_or hf
        intro i hi
        rw [Nat.testBit_two_pow] at hi
        have : k = i := of_decide_eq_true hi
        rw [← this]
        exact hbit
    · exact hf

/-- `get_flips_in_direction` from a single-bit origin flips only
opponent discs. -/
theorem get_flips_in_direction_subset {move_mask own_board opp_board : Nat}
    (direction : Int) (mask : Nat) (hopp : opp_board < 2 ^ 64)
    (hmask : mask < 2 ^ 64) (hmv : IsSingle move_mask) :
    SubsetBits (get_flips_in_direction move_mask own_board opp_board direction mask)
      opp_board := by
  unfold get_flips_in_direction
  dsimp only
  split
  · exact flipsLoop_subset direction mask hopp hmask 64 _ 0
      (shiftDir_single _ _ hmv) (subsetBits_zero _)
  · exact subsetBits_zero _

/-- `flipsAllDirections` from a single-bit origin flips only opponent
discs. -/
theorem flipsAllDirections_subset {move_mask own_board opp_board : Nat}
    (hopp : opp_board < 2 ^ 64) (hmv : IsSingle move_mask) :
    SubsetBits (flipsAllDirections move_mask own_board opp_board) opp_board := by
  have step : ∀ (l : List Int) (acc : Nat), SubsetBits acc opp_board →
      SubsetBits
        (l.foldl
          (fun total_flips direction =>
            total_flips |||
              get_flips_in_direction move_mask own_board opp_board direction
                (wrapMask direction)) acc) opp_board := by
    intro l
    induction l with
    | nil => intro acc hacc; exact hacc
    | cons d l ih =>
      intro acc hacc
      rw [List.foldl_cons]
      exact ih _ (subsetBits_or hacc
        (get_flips_in_direction_subset d _ hopp (wrapMask_lt d) hmv))
  exact step DIRECTIONS 0 (subsetBits_zero _)

theorem opp_of_lt {s : GameState} (h64 : wf64 s) : opp_of s < 2 ^ 64 := by
  unfold opp_of
  split
  · exact h64.2
  · exact h64.1

theorem own_of_lt {s : GameState} (h64 : wf64 s) : own_of s < 2 ^ 64 := by
  unfold own_of
  split
  · exact h64.1
  · exact h64.2

theorem get_flips_for_move_eq (s : GameState) (m : Nat) :
    get_flips_for_move s m = flipsAllDirections (1 <<< m) (own_of s) (opp_of s) := rfl

/-- The flips of any move are opponent discs. -/
theorem get_flips_for_move_subset {s : GameState} (m : Nat) (h64 : wf64 s) :
    SubsetBits (get_flips_for_move s m) (opp_of s) := by
  rw [get_flips_for_move_eq]
  apply flipsAllDirections_subset (opp_of_lt h64)
  rw [Nat.one_shiftLeft]
  exact Or.inr ⟨m, rfl⟩

theorem get_flips_for_move_lt {s : GameState} (m : Nat) (h64 : wf64 s) :
    get_flips_for_move s m < 2 ^ 64 :=
  lt_of_subsetBits (get_flips_for_move_subset m h64) (opp_of_lt h64)


theorem generate_eq_fold (s : GameState) :
    generate_legal_moves s = (List.range 64).foldl (genStep s) 0 := rfl

/-- The cell `j` is in the legal-move mask iff `j` is an on-board
empty cell whose flip set is nonempty — the per-bit reading of
`generate_legal_moves`. -/
theorem generate_testBit (s : GameState) (j : Nat) :
    (generate_legal_moves s).testBit j = true ↔
      (j < 64 ∧ (own_of s).testBit j = false ∧ (opp_of s).testBit j = false ∧
        get_flips_for_move s j ≠ 0) := by
  have hval : ∀ k : Nat, k ≤ 64 → ∀ j : Nat,
      (((List.range k).foldl (genStep s) 0).testBit j = true ↔
        (j < k ∧ (own_of s).testBit j = false ∧ (opp_of s).testBit j = false ∧
          get_flips_for_move s j ≠ 0)) := by
    intro k
    induction k with
    | zero =>
      intro _ j
      simp [Nat.zero_testBit]
    | succ k ih =>
      intro hk j
      rw [List.range_succ, List.foldl_append]
      have hk' : k ≤ 64 := by omega
      have hempty : ((1 <<< k) &&& empty_of s ≠ 0) ↔
          ((own_of s).testBit k = false ∧ (opp_of s).testBit k = false) := by
        rw [Nat.one_shiftLeft, two_pow_and_ne_zero_iff]
        unfold empty_of
        rw [Nat.testBit_xor, testBit_uint64_max, Nat.testBit_or]
        have hklt : decide (k < 64) = true := by
          simp; omega
        rw [hklt]
        cases ho : (own_of s).testBit k <;> cases hp : (opp_of s).testBit k <;> simp
      show ((genStep s ((List.range k).foldl (genStep s) 0) k).testBit j = true ↔ _)
      set prev := (List.range k).foldl (genStep s) 0 with hprev
      unfold genStep
      by_cases he : (1 <<< k) &&& empty_of s ≠ 0
      · rcases hempty.mp he with ⟨ho, hp⟩
        by_cases hf : flipsAllDirections (1 <<< k) (own_of s) (opp_of s) ≠ 0
        · rw [if_pos he, if_pos hf, Nat.testBit_or, Nat.one_shiftLeft,
            Nat.testBit_two_pow]
          constructor
          · intro h
            rcases Bool.or_eq_true_iff.mp h with h | h
            · rcases (ih hk' j).mp h with ⟨hj, h2, h3, h4⟩
              exact ⟨by omega, h2, h3, h4⟩
            · have hkj : k = j := of_decide_eq_true h
              subst hkj
              exact ⟨by omega, ho, hp, hf⟩
          · intro ⟨hj, h2, h3, h4⟩
            rcases Nat.lt_or_ge j k with hjk | hjk
            · rw [(ih hk' j).mpr ⟨hjk, h2, h3, h4⟩]
              rfl
            · have hkj : k = j := by omega
              subst hkj
              simp
        · rw [if_pos he, if_neg hf, ih hk' j]
          push_neg at hf
          constructor
          · intro ⟨hj, h2, h3, h4⟩
            exact ⟨by omega, h2, h3, h4⟩
          · intro ⟨hj, h2, h3, h4⟩
            refine ⟨?_, h2, h3, h4⟩
            rcases Nat.lt_or_ge j k with hjk | hjk
            · exact hjk
            · have hkj : k = j := by omega
              subst hkj
              exact absurd hf h4
      · rw [if_neg he, ih hk' j]
        rw [hempty] at he
        push_neg at he
        constructor
        · intro ⟨hj, h2, h3, h4⟩
          exact ⟨by omega, h2, h3, h4⟩
        · intro ⟨hj, h2, h3, h4⟩
          refine ⟨?_, h2, h3, h4⟩
          rcases Nat.lt_or_ge j k with hjk | hjk
          · exact hjk
          · have hkj : k = j := by omega
            subst hkj
            exact absurd h3 (he h2)
  rw [generate_eq_fold]
  exact hval 64 (le_refl 64) j

/-- The legal-move mask is a 64-bit value. -/
theorem generate_lt (s : GameState) : generate_legal_moves s < 2 ^ 64 := by
  apply lt_two_pow_of_testBit_eq_false
  intro i hi
  cases hb : (generate_legal_moves s).testBit i
  · rfl
  · rcases (generate_testBit s i).mp hb with ⟨hlt, _⟩
    omega

theorem legal_lt_64 {s : GameState} {m : Nat}
    (h : (generate_legal_moves s).testBit m = true) : m < 64 :=
  ((generate_testBit s m).mp h).1

theorem legal_own_empty {s : GameState} {m : Nat}
    (h : (generate_legal_moves s).testBit m = true) : (own_of s).testBit m = false :=
  ((generate_testBit s m).mp h).2.1

theorem legal_opp_empty {s : GameState} {m : Nat}
    (h : (generate_legal_moves s).testBit m = true) : (opp_of s).testBit m = false :=
  ((generate_testBit s m).mp h).2.2.1

theorem legal_flips_ne {s : GameState} {m : Nat}
    (h : (generate_legal_moves s).testBit m = true) : get_flips_for_move s m ≠ 0 :=
  ((generate_testBit s m).mp h).2.2.2

/-- An empty but illegal cell has an empty flip set (the move
generator would have marked it otherwise). -/
theorem flips_eq_zero_of_not_legal {s : GameState} {m : Nat} (hm : m < 64)
    (hown : (own_of s).testBit m = false) (hopp : (opp_of s).testBit m = false)
    (h : (generate_legal_moves s).testBit m = false) :
    get_flips_for_move s m = 0 := by
  by_contra hf
  rw [(generate_testBit s m).mpr ⟨hm, hown, hopp, hf⟩] at h
  simp at h

/-- The ray walk keeps its accumulated flips inside 64 bits,
independently of the boards. -/
theorem flipsLoop_lt {opp_board : Nat} (direction : Int) (mask : Nat) :
    ∀ fuel current flipped, current < 2 ^ 64 → flipped < 2 ^ 64 →
      (flipsLoop opp_board direction mask fuel current flipped).2 < 2 ^ 64 := by
  intro fuel
  induction fuel with
  | zero => intro current flipped _ hf; exact hf
  | succ fuel ih =>
    intro current flipped hc hf
    rw [flipsLoop]
    split
    · apply ih
      · unfold shiftDir
        split
        · calc (current &&& mask) >>> (-direction).toNat ≤ current &&& mask := by
                rw [Nat.shiftRight_eq_div_pow]; exact Nat.div_le_self _ _
            _ ≤ current := Nat.and_le_left
            _ < 2 ^ 64 := hc
        · calc ((current &&& mask) <<< direction.toNat) &&& UINT64_MAX ≤ UINT64_MAX :=
                Nat.and_le_right
            _ < 2 ^ 64 := by norm_num [UINT64_MAX]
      · exact Nat.or_lt_two_pow hf hc
    · exact hf

theorem get_flips_in_direction_lt (move_mask own_board opp_board : Nat)
    (direction : Int) {mask : Nat} (hmask : mask < 2 ^ 64) :
    get_flips_in_direction move_mask own_board opp_board direction mask < 2 ^ 64 := by
  unfold get_flips_in_direction
  dsimp only
  split
  · exact flipsLoop_lt direction mask 64 _ 0 (shiftDir_lt _ _ hmask) (by norm_num)
  · norm_num

/-- The flip set of any cell is a 64-bit value, with no hypothesis on
the snapshot: the walk only accumulates masked/shifted 64-bit
cursors. -/
theorem flipsAllDirections_lt (move_mask own_board opp_board : Nat) :
    flipsAllDirections move_mask own_board opp_board < 2 ^ 64 := by
  have step : ∀ (l : List Int) (acc : Nat), acc < 2 ^ 64 →
      (l.foldl
        (fun total_flips direction =>
          total_flips |||
            get_flips_in_direction move_mask own_board opp_board direction
              (wrapMask direction)) acc) < 2 ^ 64 := by
    intro l
    induction l with
    | nil => intro acc hacc; exact hacc
    | cons d l ih =>
      intro acc hacc
      rw [List.foldl_cons]
      exact ih _ (Nat.or_lt_two_pow hacc
        (get_flips_in_direction_lt _ _ _ d (wrapMask_lt d)))
  exact step DIRECTIONS 0 (by norm_num)

theorem get_flips_for_move_lt' (s : GameState) (m : Nat) :
    get_flips_for_move s m < 2 ^ 64 := by
  rw [get_flips_for_move_eq]
  exact flipsAllDirections_lt _ _ _

/-- Bits of a subset vanish wherever the superset's do. -/
theorem subset_testBit_false {f y : Nat} {i : Nat} (hf : SubsetBits f y)
    (h : y.testBit i = false) : f.testBit i = false := by
  cases hfi : f.testBit i
  · rfl
  · rw [hf i hfi] at h; exact absurd h.symm Bool.false_ne_true

theorem and_two_pow_of_testBit_false {x : Nat} {m : Nat}
    (h : x.testBit m = false) : x &&& 2 ^ m = 0 := by
  rw [Nat.land_comm, two_pow_and, h]
  rfl

/-- Placing a disc on an empty cell and adding the flips: the mover's
count rises by `1 + |flips|`, the opponent's falls by `|flips|`. -/
theorem place_counts {own opp flips : Nat} {m : Nat} (hm : m < 64)
    (hown : own < 2 ^ 64) (hopp : opp < 2 ^ 64) (hdisj : own &&& opp = 0)
    (hom : own.testBit m = false) (hpm : opp.testBit m = false)
    (hf : SubsetBits flips opp) :
    count_discs ((own ||| (1 <<< m)) ||| flips) =
        count_discs own + 1 + count_discs flips ∧
      count_discs opp =
        count_discs (opp &&& (flips ^^^ UINT64_MAX)) + count_discs flips := by
  have hflt : flips < 2 ^ 64 := lt_of_subsetBits hf hopp
  have h2m : (2 : Nat) ^ m < 2 ^ 64 := Nat.pow_lt_pow_right (by norm_num) hm
  have hown2 : own &&& 2 ^ m = 0 := and_two_pow_of_testBit_false hom
  have hcount1 : count_discs (own ||| 2 ^ m) = count_discs own + 1 := by
    rw [count_discs_or_disjoint hown h2m hown2, count_discs_two_pow hm]
  have hor1 : own ||| 2 ^ m < 2 ^ 64 := Nat.or_lt_two_pow hown h2m
  have hand2 : (own ||| 2 ^ m) &&& flips = 0 := by
    apply and_eq_zero_of_disjoint
    intro i hi
    rw [Nat.testBit_or] at hi
    rcases Bool.or_eq_true_iff.mp hi with h | h
    · exact subset_testBit_false hf (disjoint_of_and_eq_zero hdisj i h)
    · rw [Nat.testBit_two_pow] at h
      have : m = i := of_decide_eq_true h
      subst this
      exact subset_testBit_false hf hpm
  constructor
  · rw [Nat.one_shiftLeft, count_discs_or_disjoint hor1 hflt hand2, hcount1]
  · have hsplit_or : (opp &&& (flips ^^^ UINT64_MAX)) ||| flips = opp := by
      apply Nat.eq_of_testBit_eq
      intro i
      rw [Nat.testBit_or, Nat.testBit_and, Nat.testBit_xor, testBit_uint64_max]
      rcases Nat.lt_or_ge i 64 with hi | hi
      · have : decide (i < 64) = true := by simp [hi]
        rw [this]
        cases hfi : flips.testBit i
        · cases ho : opp.testBit i <;> simp
        · rw [hf i hfi]; simp
      · have hdd : decide (i < 64) = false := by simp; omega
        rw [hdd, testBit_eq_false_of_lt_two_pow hopp hi,
          testBit_eq_false_of_lt_two_pow hflt hi]
        simp
    have hsplit_and : (opp &&& (flips ^^^ UINT64_MAX)) &&& flips = 0 := by
      apply and_eq_zero_of_disjoint
      intro i hi
      rw [Nat.testBit_and, Nat.testBit_xor, testBit_uint64_max] at hi
      rcases Nat.lt_or_ge i 64 with hilt | hige
      · have : decide (i < 64) = true := by simp [hilt]
        rw [this] at hi
        cases hfi : flips.testBit i
        · rfl
        · rw [hfi] at hi; simp at hi
      · exact testBit_eq_false_of_lt_two_pow hflt hige
    have hlt' : opp &&& (flips ^^^ UINT64_MAX) < 2 ^ 64 :=
      lt_of_le_of_lt Nat.and_le_left hopp
    calc count_discs opp = count_discs ((opp &&& (flips ^^^ UINT64_MAX)) ||| flips) := by
          rw [hsplit_or]
      _ = count_discs (opp &&& (flips ^^^ UINT64_MAX)) + count_discs flips :=
          count_discs_or_disjoint hlt' hflt hsplit_and

/-- Occupancy disjointness survives a placement. -/
theorem place_disjoint {own opp flips : Nat} {m : Nat}
    (hdisj : own &&& opp = 0) (hpm : opp.testBit m = false)
    (hflt : flips < 2 ^ 64) :
    ((own ||| (1 <<< m)) ||| flips) &&& (opp &&& (flips ^^^ UINT64_MAX)) = 0 := by
  apply and_eq_zero_of_disjoint
  intro i hi
  rw [Nat.testBit_or, Nat.testBit_or, Nat.one_shiftLeft, Nat.testBit_two_pow] at hi
  rw [Nat.testBit_and, Nat.testBit_xor, testBit_uint64_max]
  rcases Bool.or_eq_true_iff.mp hi with hi' | hfi
  · rcases Bool.or_eq_true_iff.mp hi' with ho | hm'
    · rw [disjoint_of_and_eq_zero hdisj i ho]
      rfl
    · have : m = i := of_decide_eq_true hm'
      subst this
      rw [hpm]
      rfl
  · rcases Nat.lt_or_ge i 64 with hilt | hige
    · have : decide (i < 64) = true := by simp [hilt]
      rw [this, hfi]
      cases opp.testBit i <;> rfl
    · rw [testBit_eq_false_of_lt_two_pow hflt hige] at hfi
      exact absurd hfi Bool.false_ne_true


theorem own_of_eq_board (s : GameState) : own_of s = board_of s s.current_player := rfl

theorem opp_of_eq_board (s : GameState) :
    opp_of s = board_of s (switch_player s.current_player) := by
  unfold opp_of board_of switch_player
  cases hp : s.current_player <;> simp [hp]

/-- The two new boards produced by `apply_move`, named by color. -/
theorem apply_move_board_mover (s : GameState) (m : Nat) :
    board_of (apply_move s m) s.current_player =
      (board_of s s.current_player ||| (1 <<< m)) ||| get_flips_for_move s m := by
  unfold apply_move board_of
  cases hp : s.current_player <;> simp [hp, switch_player]

theorem apply_move_board_opponent (s : GameState) (m : Nat) :
    board_of (apply_move s m) (switch_player s.current_player) =
      board_of s (switch_player s.current_player) &&&
        (get_flips_for_move s m ^^^ UINT64_MAX) := by
  unfold apply_move board_of switch_player
  cases hp : s.current_player <;> simp [hp]

theorem apply_move_player (s : GameState) (m : Nat) :
    (apply_move s m).current_player = switch_player s.current_player := by
  unfold apply_move
  cases hp : s.current_player <;> simp [hp]

theorem apply_move_pass_count (s : GameState) (m : Nat) :
    (apply_move s m).pass_count = 0 := by
  unfold apply_move
  cases hp : s.current_player <;> simp [hp]

/-- Disc-count accounting of `apply_move` at a legal cell. -/
theorem apply_move_counts {s : GameState} {m : Nat} (h64 : wf64 s)
    (hdisj : s.black_discs &&& s.white_discs = 0)
    (hleg : (generate_legal_moves s).testBit m = true) :
    count_discs (board_of (apply_move s m) s.current_player) =
        count_discs (board_of s s.current_player) + 1 +
          count_discs (get_flips_for_move s m) ∧
      count_discs (board_of s (switch_player s.current_player)) =
        count_discs (board_of (apply_move s m) (switch_player s.current_player)) +
          count_discs (get_flips_for_move s m) := by
  have hm := legal_lt_64 hleg
  have hom := legal_own_empty hleg
  have hpm := legal_opp_empty hleg
  have hsub := get_flips_for_move_subset m h64
  have hdisj' : own_of s &&& opp_of s = 0 := by
    unfold own_of opp_of
    by_cases hp : s.current_player = Black
    · simp only [hp, reduceIte]
      exact hdisj
    · simp only [hp, reduceIte]
      rw [Nat.land_comm]
      exact hdisj
  have h := place_counts hm (own_of_lt h64) (opp_of_lt h64) hdisj' hom hpm hsub
  constructor
  · rw [apply_move_board_mover, ← own_of_eq_board]
    exact h.1
  · rw [apply_move_board_opponent, ← opp_of_eq_board]
    exact h.2

/-- Occupancy disjointness is preserved by a legal `apply_move`. -/
theorem apply_move_disjoint {s : GameState} {m : Nat}
    (hdisj : s.black_discs &&& s.white_discs = 0)
    (hleg : (generate_legal_moves s).testBit m = true) :
    (apply_move s m).black_discs &&& (apply_move s m).white_discs = 0 := by
  have hpm := legal_opp_empty hleg
  have hflt := get_flips_for_move_lt' s m
  unfold apply_move
  cases hp : s.current_player
  · have hpm' : s.white_discs.testBit m = false := by
      unfold opp_of at hpm
      rw [hp] at hpm
      simpa using hpm
    simp only [hp, reduceIte]
    exact place_disjoint hdisj hpm' hflt
  · have hpm' : s.black_discs.testBit m = false := by
      unfold opp_of at hpm
      rw [hp] at hpm
      simpa using hpm
    have hdisj' : s.white_discs &&& s.black_discs = 0 := by
      rw [Nat.land_comm]; exact hdisj
    simp only [hp, reduceIte]
    rw [Nat.land_comm]
    exact place_disjoint hdisj' hpm' hflt

/-- `apply_move` keeps 64-bit boards. -/
theorem apply_move_wf64 {s : GameState} {m : Nat} (h64 : wf64 s) (hm : m < 64) :
    wf64 (apply_move s m) := by
  have hflt := get_flips_for_move_lt' s m
  have h2m : (1 <<< m : Nat) < 2 ^ 64 := by
    rw [Nat.one_shiftLeft]
    exact Nat.pow_lt_pow_right (by norm_num) hm
  unfold apply_move wf64
  cases hp : s.current_player <;> simp only [hp, reduceIte] <;>
    constructor <;>
      first
      | exact Nat.or_lt_two_pow (Nat.or_lt_two_pow (by exact h64.1) h2m) hflt
      | exact Nat.or_lt_two_pow (Nat.or_lt_two_pow (by exact h64.2) h2m) hflt
      | exact lt_of_le_of_lt Nat.and_le_left h64.1
      | exact lt_of_le_of_lt Nat.and_le_left h64.2

theorem apply_pass_wf64 {s : GameState} (h64 : wf64 s) : wf64 (apply_pass s) := h64

theorem apply_pass_black (s : GameState) : (apply_pass s).black_discs = s.black_discs := rfl

theorem apply_pass_white (s : GameState) : (apply_pass s).white_discs = s.white_discs := rfl


end RuleFacts

/-! ## Evaluator decomposition

`Engine::evaluate` splits into named components: the two mobility
terms (which, in the code, depend only on `state.current_player`, not
on the perspective argument), a signed positional sum and a signed
phase-weighted disc differential. -/

namespace EvalFacts

open Core Engine


/-- A pairwise fold that adds `(f i, g i)` componentwise evaluates to
the pair of sums. -/
theorem foldl_pair_add (l : List Nat) (f g : Nat → Int) :
    ∀ a b : Int,
      l.foldl (fun (acc : Int × Int) i => (acc.1 + f i, acc.2 + g i)) (a, b) =
        (l.foldl (fun acc i => acc + f i) a, l.foldl (fun acc i => acc + g i) b) := by
  induction l with
  | nil => intro a b; rfl
  | cons x l ih =>
    intro a b
    rw [List.foldl_cons, List.foldl_cons, List.foldl_cons]
    exact ih (a + f x) (b + g x)

theorem switch_switch (p : Player) : switch_player (switch_player p) = p := by
  cases p <;> rfl

theorem foldl_add_shift (l : List Nat) (f : Nat → Int) :
    ∀ a : Int, l.foldl (fun acc i => acc + f i) a =
      a + l.foldl (fun acc i => acc + f i) 0 := by
  induction l with
  | nil => intro a; simp
  | cons x l ih =>
    intro a
    rw [List.foldl_cons, List.foldl_cons, ih (a + f x), ih (0 + f x)]
    ring

/-- The positional scan of `evaluate`, for `ai_player = Black`: black
cells feed `ai_score`, white-only cells feed `opp_score`. -/
theorem eval_fold_black (state : GameState) (init : Int × Int) :
    (List.range 64).foldl
      (fun (scores : Int × Int) i =>
        if state.black_discs &&& 1 <<< i ≠ 0 then
          (scores.1 + POSITION_WEIGHTS.getD i 0, scores.2)
        else
          if state.white_discs &&& 1 <<< i ≠ 0 then
            (scores.1, scores.2 + POSITION_WEIGHTS.getD i 0)
          else scores) init =
      (init.1 + posSumBlack state, init.2 + posSumWhiteOnly state) := by
  have hext : (List.range 64).foldl
      (fun (scores : Int × Int) i =>
        if state.black_discs &&& 1 <<< i ≠ 0 then
          (scores.1 + POSITION_WEIGHTS.getD i 0, scores.2)
        else
          if state.white_discs &&& 1 <<< i ≠ 0 then
            (scores.1, scores.2 + POSITION_WEIGHTS.getD i 0)
          else scores) init =
      (List.range 64).foldl
        (fun (scores : Int × Int) i =>
          (scores.1 + blackTerm state i, scores.2 + whiteOnlyTerm state i)) init := by
    apply List.foldl_ext
    intro acc i _
    unfold blackTerm whiteOnlyTerm
    by_cases hb : state.black_discs &&& (1 <<< i) ≠ 0 <;>
      by_cases hw : state.white_discs &&& (1 <<< i) ≠ 0 <;> simp [hb, hw]
  obtain ⟨a, b⟩ := init
  rw [hext, foldl_pair_add]
  unfold posSumBlack posSumWhiteOnly
  rw [foldl_add_shift _ (blackTerm state) a, foldl_add_shift _ (whiteOnlyTerm state) b]

/-- The positional scan of `evaluate`, for `ai_player = White`: black
cells feed `opp_score`, white-only cells feed `ai_score`. -/
theorem eval_fold_white (state : GameState) (init : Int × Int) :
    (List.range 64).foldl
      (fun (scores : Int × Int) i =>
        if state.black_discs &&& 1 <<< i ≠ 0 then
          (scores.1, scores.2 + POSITION_WEIGHTS.getD i 0)
        else
          if state.white_discs &&& 1 <<< i ≠ 0 then
            (scores.1 + POSITION_WEIGHTS.getD i 0, scores.2)
          else scores) init =
      (init.1 + posSumWhiteOnly state, init.2 + posSumBlack state) := by
  have hext : (List.range 64).foldl
      (fun (scores : Int × Int) i =>
        if state.black_discs &&& 1 <<< i ≠ 0 then
          (scores.1, scores.2 + POSITION_WEIGHTS.getD i 0)
        else
          if state.white_discs &&& 1 <<< i ≠ 0 then
            (scores.1 + POSITION_WEIGHTS.getD i 0, scores.2)
          else scores) init =
      (List.range 64).foldl
        (fun (scores : Int × Int) i =>
          (scores.1 + whiteOnlyTerm state i, scores.2 + blackTerm state i)) init := by
    apply List.foldl_ext
    intro acc i _
    unfold blackTerm whiteOnlyTerm
    by_cases hb : state.black_discs &&& (1 <<< i) ≠ 0 <;>
      by_cases hw : state.white_discs &&& (1 <<< i) ≠ 0 <;> simp [hb, hw]
  obtain ⟨a, b⟩ := init
  rw [hext, foldl_pair_add]
  unfold posSumBlack posSumWhiteOnly
  rw [foldl_add_shift _ (whiteOnlyTerm state) a, foldl_add_shift _ (blackTerm state) b]

/-- `evaluate` in terms of its four named components.  The two
mobility terms are attached to `ai_score`/`opp_score` independently of
the perspective `p`. -/
theorem evaluate_decomp (state : GameState) (p : Player) :
    evaluate state p =
      (currentMobility state * 5 + posFor state p + discTerm state p) -
        (opponentMobility state * 5 + posFor state (switch_player p)) := by
  cases p
  · unfold evaluate
    dsimp only
    simp only [reduceCtorEq, reduceIte]
    rw [eval_fold_black]
    unfold currentMobility opponentMobility posFor discTerm
    dsimp only
    simp only [show switch_player Black = White from rfl, reduceCtorEq, reduceIte]
  · unfold evaluate
    dsimp only
    simp only [reduceCtorEq, reduceIte]
    rw [eval_fold_white]
    unfold currentMobility opponentMobility posFor discTerm
    dsimp only
    simp only [show switch_player White = Black from rfl, reduceCtorEq, reduceIte]

/-- Negating the differential negates each phase branch: truncation
toward zero (the C++ `(int)` cast of the `double` product) is an odd
function. -/
theorem phase_neg (x y t : Int) :
    (if t ≤ 20 then (y - x).tdiv 2 else if t ≤ 40 then (y - x) * 2 else (y - x) * 5) =
      -(if t ≤ 20 then (x - y).tdiv 2 else if t ≤ 40 then (x - y) * 2 else (x - y) * 5) := by
  have hxy : (y - x : Int) = -(x - y) := by ring
  rw [hxy]
  split
  · exact Int.neg_tdiv _ _
  · split <;> ring

/-- The disc-differential term is antisymmetric in the perspective. -/
theorem discTerm_switch (state : GameState) (p : Player) :
    discTerm state (switch_player p) = -discTerm state p := by
  unfold discTerm
  dsimp only
  cases p
  · simp only [show switch_player Black = White from rfl, reduceCtorEq, reduceIte]
    exact phase_neg _ _ _
  · simp only [show switch_player White = Black from rfl, reduceCtorEq, reduceIte]
    exact phase_neg _ _ _

/-- Every entry of the weight table lies in `[-200, 200]`. -/
theorem weights_bound (i : Nat) :
    -200 ≤ POSITION_WEIGHTS.getD i 0 ∧ POSITION_WEIGHTS.getD i 0 ≤ 200 := by
  have hlen : POSITION_WEIGHTS.length = 64 := by decide
  rcases Nat.lt_or_ge i 64 with hi | hi
  · interval_cases i <;> constructor <;> decide
  · rw [List.getD_eq_getElem?_getD]
    have : POSITION_WEIGHTS[i]? = none := by
      rw [List.getElem?_eq_none]
      omega
    rw [this]
    constructor <;> norm_num

theorem blackTerm_bound (state : GameState) (i : Nat) :
    -200 ≤ blackTerm state i ∧ blackTerm state i ≤ 200 := by
  unfold blackTerm
  split
  · exact weights_bound i
  · constructor <;> norm_num

theorem whiteOnlyTerm_bound (state : GameState) (i : Nat) :
    -200 ≤ whiteOnlyTerm state i ∧ whiteOnlyTerm state i ≤ 200 := by
  unfold whiteOnlyTerm
  split
  · constructor <;> norm_num
  · split
    · exact weights_bound i
    · constructor <;> norm_num

theorem foldl_add_bound (l : List Nat) (f : Nat → Int) (c : Int)
    (hf : ∀ i ∈ l, -c ≤ f i ∧ f i ≤ c) :
    -(c * l.length) ≤ l.foldl (fun acc i => acc + f i) 0 ∧
      l.foldl (fun acc i => acc + f i) 0 ≤ c * l.length := by
  induction l with
  | nil => constructor <;> simp
  | cons x l ih =>
    have hx := hf x (List.mem_cons_self x l)
    have hl : ∀ i ∈ l, -c ≤ f i ∧ f i ≤ c := fun i hi => hf i (List.mem_cons_of_mem x hi)
    have hrec := ih hl
    rw [List.foldl_cons, foldl_add_shift l f (0 + f x)]
    have hlen : ((x :: l).length : Int) = (l.length : Int) + 1 := by
      simp
    rw [hlen]
    constructor <;> nlinarith [hrec.1, hrec.2, hx.1, hx.2]

theorem posSumBlack_bound (state : GameState) :
    -12800 ≤ posSumBlack state ∧ posSumBlack state ≤ 12800 := by
  have h := foldl_add_bound (List.range 64) (blackTerm state) 200
    (fun i _ => blackTerm_bound state i)
  rw [List.length_range] at h
  unfold posSumBlack
  constructor
  · calc (-12800 : Int) = -(200 * 64) := by norm_num
      _ ≤ _ := h.1
  · calc _ ≤ (200 * 64 : Int) := h.2
      _ = 12800 := by norm_num

theorem posSumWhiteOnly_bound (state : GameState) :
    -12800 ≤ posSumWhiteOnly state ∧ posSumWhiteOnly state ≤ 12800 := by
  have h := foldl_add_bound (List.range 64) (whiteOnlyTerm state) 200
    (fun i _ => whiteOnlyTerm_bound state i)
  rw [List.length_range] at h
  unfold posSumWhiteOnly
  constructor
  · calc (-12800 : Int) = -(200 * 64) := by norm_num
      _ ≤ _ := h.1
  · calc _ ≤ (200 * 64 : Int) := h.2
      _ = 12800 := by norm_num

theorem posFor_bound (state : GameState) (p : Player) :
    -12800 ≤ posFor state p ∧ posFor state p ≤ 12800 := by
  unfold posFor
  split
  · exact posSumBlack_bound state
  · exact posSumWhiteOnly_bound state

theorem tdiv2_bound {x : Int} (hlo : -64 ≤ x) (hhi : x ≤ 64) :
    -64 ≤ x.tdiv 2 ∧ x.tdiv 2 ≤ 64 := by
  rcases le_or_lt 0 x with hx | hx
  · rw [Int.tdiv_eq_ediv hx (by norm_num)]
    have h1 : (0 : Int) ≤ x / 2 := Int.ediv_nonneg hx (by norm_num)
    have h2 : x / 2 ≤ x := Int.ediv_le_self 2 hx
    omega
  · have hx' : x = -(-x) := by ring
    rw [hx', Int.neg_tdiv]
    have hnn : (0 : Int) ≤ -x := by omega
    rw [Int.tdiv_eq_ediv hnn (by norm_num)]
    have h1 : (0 : Int) ≤ (-x) / 2 := Int.ediv_nonneg hnn (by norm_num)
    have h2 : (-x) / 2 ≤ -x := Int.ediv_le_self 2 hnn
    omega

theorem discTerm_bound (state : GameState) (p : Player) (h64 : wf64 state) :
    -320 ≤ discTerm state p ∧ discTerm state p ≤ 320 := by
  have hb : Core.count_discs state.black_discs ≤ 64 := CountFacts.count_discs_le_64 h64.1
  have hw : Core.count_discs state.white_discs ≤ 64 := CountFacts.count_discs_le_64 h64.2
  unfold discTerm
  dsimp only
  have hdlo : (-64 : Int) ≤
      (if p = Black then
        (Core.count_discs state.black_discs : Int) - Core.count_discs state.white_discs
      else (Core.count_discs state.white_discs : Int) - Core.count_discs state.black_discs) := by
    split <;> omega
  have hdhi :
      (if p = Black then
        (Core.count_discs state.black_discs : Int) - Core.count_discs state.white_discs
      else (Core.count_discs state.white_discs : Int) - Core.count_discs state.black_discs) ≤
        64 := by
    split <;> omega
  split
  · have := tdiv2_bound hdlo hdhi
    omega
  · split <;> omega

theorem mobility_bound (x : Nat) (hx : x < 2 ^ 64) :
    (0 : Int) ≤ Core.count_discs x ∧ (Core.count_discs x : Int) ≤ 64 := by
  have := CountFacts.count_discs_le_64 hx
  constructor
  · positivity
  · exact_mod_cast this

/-- Everything `evaluate` returns fits well inside the 32-bit range. -/
theorem evaluate_bound (state : GameState) (p : Player) (h64 : wf64 state) :
    -30000 ≤ evaluate state p ∧ evaluate state p ≤ 30000 := by
  have hcm := mobility_bound (Core.generate_legal_moves state) (RuleFacts.generate_lt state)
  have hom := mobility_bound
    (Core.generate_legal_moves
      { state with current_player := switch_player state.current_player })
    (RuleFacts.generate_lt _)
  have hp1 := posFor_bound state p
  have hp2 := posFor_bound state (switch_player p)
  have hd := discTerm_bound state p h64
  rw [evaluate_decomp]
  unfold currentMobility opponentMobility
  constructor <;> nlinarith [hcm.1, hcm.2, hom.1, hom.2, hp1.1, hp1.2, hp2.1, hp2.2, hd.1, hd.2]

end EvalFacts

/-! ## Search facts

Bounds on the unpruned traversal, and the Knuth–Moore style loop
invariants relating the alpha-beta folds of `minimax_ab` to the plain
max/min folds of `minimax_plain`. -/

namespace SearchFacts

open Core Engine RuleFacts

theorem exists_testBit_of_ne_zero {x : Nat} (hx : x ≠ 0) :
    ∃ i, x.testBit i = true := by
  by_contra h
  push_neg at h
  apply hx
  apply eq_zero_of_testBit_eq_false
  intro i
  cases hb : x.testBit i
  · rfl
  · exact absurd hb (h i)

section PureFold

variable {P : Nat → Prop} [DecidablePred P] {v : Nat → Int}

theorem fold_max_ge_start (l : List Nat) :
    ∀ acc : Int, acc ≤ l.foldl (fun acc i => if P i then max acc (v i) else acc) acc := by
  induction l with
  | nil => intro acc; exact le_refl acc
  | cons x l ih =>
    intro acc
    rw [List.foldl_cons]
    split
    · exact le_trans (le_max_left acc (v x)) (ih (max acc (v x)))
    · exact ih acc

theorem fold_max_ge_elem (l : List Nat) {j : Nat} (hj : j ∈ l) (hP : P j) :
    ∀ acc : Int, v j ≤ l.foldl (fun acc i => if P i then max acc (v i) else acc) acc := by
  induction l with
  | nil => exact absurd hj (List.not_mem_nil j)
  | cons x l ih =>
    intro acc
    rw [List.foldl_cons]
    rcases List.mem_cons.mp hj with rfl | hjl
    · rw [if_pos hP]
      exact le_trans (le_max_right acc (v j)) (fold_max_ge_start l _)
    · split
      · exact ih hjl _
      · exact ih hjl _

theorem fold_max_le (l : List Nat) {C : Int}
    (hv : ∀ i ∈ l, P i → v i ≤ C) :
    ∀ acc : Int, acc ≤ C →
      l.foldl (fun acc i => if P i then max acc (v i) else acc) acc ≤ C := by
  induction l with
  | nil => intro acc hacc; exact hacc
  | cons x l ih =>
    intro acc hacc
    rw [List.foldl_cons]
    have hl : ∀ i ∈ l, P i → v i ≤ C := fun i hi => hv i (List.mem_cons_of_mem x hi)
    split
    · rename_i hPx
      exact ih hl _ (max_le hacc (hv x (List.mem_cons_self x l) hPx))
    · exact ih hl _ hacc

theorem fold_min_le_start (l : List Nat) :
    ∀ acc : Int, l.foldl (fun acc i => if P i then min acc (v i) else acc) acc ≤ acc := by
  induction l with
  | nil => intro acc; exact le_refl acc
  | cons x l ih =>
    intro acc
    rw [List.foldl_cons]
    split
    · exact le_trans (ih (min acc (v x))) (min_le_left acc (v x))
    · exact ih acc

theorem fold_min_le_elem (l : List Nat) {j : Nat} (hj : j ∈ l) (hP : P j) :
    ∀ acc : Int, l.foldl (fun acc i => if P i then min acc (v i) else acc) acc ≤ v j := by
  induction l with
  | nil => exact absurd hj (List.not_mem_nil j)
  | cons x l ih =>
    intro acc
    rw [List.foldl_cons]
    rcases List.mem_cons.mp hj with rfl | hjl
    · rw [if_pos hP]
      exact le_trans (fold_min_le_start l _) (min_le_right acc (v j))
    · split
      · exact ih hjl _
      · exact ih hjl _

theorem fold_min_ge (l : List Nat) {C : Int}
    (hv : ∀ i ∈ l, P i → C ≤ v i) :
    ∀ acc : Int, C ≤ acc →
      C ≤ l.foldl (fun acc i => if P i then min acc (v i) else acc) acc := by
  induction l with
  | nil => intro acc hacc; exact hacc
  | cons x l ih =>
    intro acc hacc
    rw [List.foldl_cons]
    have hl : ∀ i ∈ l, P i → C ≤ v i := fun i hi => hv i (List.mem_cons_of_mem x hi)
    split
    · rename_i hPx
      exact ih hl _ (le_min hacc (hv x (List.mem_cons_self x l) hPx))
    · exact ih hl _ hacc

end PureFold

theorem legal_and_iff (legal i : Nat) :
    legal &&& (1 <<< i) ≠ 0 ↔ legal.testBit i = true := by
  rw [Nat.one_shiftLeft]
  exact BitFacts.and_two_pow_ne_zero_iff i legal

/-- A nonempty legal mask yields a legal cell index below 64. -/
theorem exists_legal_cell {s : GameState}
    (h : Core.count_discs (Core.generate_legal_moves s) ≠ 0) :
    ∃ j, j < 64 ∧ Core.generate_legal_moves s &&& (1 <<< j) ≠ 0 := by
  have hne : Core.generate_legal_moves s ≠ 0 := by
    intro h0
    rw [h0] at h
    exact h CountFacts.count_discs_zero
  obtain ⟨j, hj⟩ := exists_testBit_of_ne_zero hne
  exact ⟨j, legal_lt_64 hj, (legal_and_iff _ j).mpr hj⟩

/-- Bounds on the unpruned traversal: every node value lies in
`[-30000, 30000]` (the fold seeds `INT_MIN`/`INT_MAX` are always
replaced, since an internal node has at least one child). -/
theorem minimax_plain_bound :
    ∀ (n : Nat) (s : GameState) (d : Nat) (maxi : Bool) (ai : Player),
      3 * d + (2 - s.pass_count) ≤ n → wf64 s →
      -30000 ≤ Engine.minimax_plain s d maxi ai ∧
        Engine.minimax_plain s d maxi ai ≤ 30000 := by
  intro n
  induction n using Nat.strong_induction_on with
  | _ n IH =>
    intro s d maxi ai hm h64
    rw [Engine.minimax_plain.eq_def]
    dsimp only
    split
    · exact EvalFacts.evaluate_bound s ai h64
    · rename_i hterm
      split
      · rename_i hpass
        simp only [not_or, Bool.not_eq_true] at hterm
        have hpc := Engine.pass_count_lt_of_not_terminal hterm.2
        have hd0 : d ≠ 0 := hterm.1
        apply IH (n - 1) (by omega) _ _ _ _ _ (apply_pass_wf64 h64)
        simp only [Core.apply_pass]
        omega
      · rename_i hpass
        simp only [not_or, Bool.not_eq_true] at hterm
        have hd0 : d ≠ 0 := hterm.1
        have hchild : ∀ i ∈ List.range 64,
            Core.generate_legal_moves s &&& (1 <<< i) ≠ 0 →
            -30000 ≤ Engine.minimax_plain (Core.apply_move s i) (d - 1) false ai ∧
              Engine.minimax_plain (Core.apply_move s i) (d - 1) false ai ≤ 30000 := by
          intro i hi _
          have hi64 : i < 64 := List.mem_range.mp hi
          apply IH (n - 1) (by omega) _ _ _ _ _ (apply_move_wf64 h64 hi64)
          rw [apply_move_pass_count]
          omega
        have hchild' : ∀ i ∈ List.range 64,
            Core.generate_legal_moves s &&& (1 <<< i) ≠ 0 →
            -30000 ≤ Engine.minimax_plain (Core.apply_move s i) (d - 1) true ai ∧
              Engine.minimax_plain (Core.apply_move s i) (d - 1) true ai ≤ 30000 := by
          intro i hi _
          have hi64 : i < 64 := List.mem_range.mp hi
          apply IH (n - 1) (by omega) _ _ _ _ _ (apply_move_wf64 h64 hi64)
          rw [apply_move_pass_count]
          omega
        obtain ⟨j, hj64, hjP⟩ := exists_legal_cell hpass
        have hjmem : j ∈ List.range 64 := List.mem_range.mpr hj64
        split
        · constructor
          · calc (-30000 : Int) ≤ Engine.minimax_plain (Core.apply_move s j) (d - 1) false ai :=
                  (hchild j hjmem hjP).1
              _ ≤ _ := fold_max_ge_elem (List.range 64) hjmem hjP INT_MIN
          · exact fold_max_le (List.range 64)
              (fun i hi hP => (hchild i hi hP).2) INT_MIN (by norm_num [INT_MIN])
        · constructor
          · exact fold_min_ge (List.range 64)
              (fun i hi hP => (hchild' i hi hP).1) INT_MAX (by norm_num [INT_MAX])
          · calc _ ≤ Engine.minimax_plain (Core.apply_move s j) (d - 1) true ai :=
                  fold_min_le_elem (List.range 64) hjmem hjP INT_MAX
              _ ≤ 30000 := (hchild' j hjmem hjP).2


theorem abMaxStep_done (β : Int) (P : Nat → Prop) [DecidablePred P]
    (f : Nat → Int → Int) (m α : Int) (i : Nat) :
    abMaxStep β P f (m, α, true) i = (m, α, true) := by
  unfold abMaxStep
  rfl

theorem abMaxStep_notP (β : Int) (P : Nat → Prop) [DecidablePred P]
    (f : Nat → Int → Int) (m α : Int) {i : Nat} (hP : ¬P i) :
    abMaxStep β P f (m, α, false) i = (m, α, false) := by
  unfold abMaxStep
  simp [hP]

theorem abMaxStep_P (β : Int) (P : Nat → Prop) [DecidablePred P]
    (f : Nat → Int → Int) (m α : Int) {i : Nat} (hP : P i) :
    abMaxStep β P f (m, α, false) i =
      (max m (f i α), max α (max m (f i α)),
        decide (β ≤ max α (max m (f i α)))) := by
  unfold abMaxStep
  simp [hP]

theorem abMinStep_done (α₀ : Int) (P : Nat → Prop) [DecidablePred P]
    (f : Nat → Int → Int) (m β : Int) (i : Nat) :
    abMinStep α₀ P f (m, β, true) i = (m, β, true) := by
  unfold abMinStep
  rfl

theorem abMinStep_notP (α₀ : Int) (P : Nat → Prop) [DecidablePred P]
    (f : Nat → Int → Int) (m β : Int) {i : Nat} (hP : ¬P i) :
    abMinStep α₀ P f (m, β, false) i = (m, β, false) := by
  unfold abMinStep
  simp [hP]

theorem abMinStep_P (α₀ : Int) (P : Nat → Prop) [DecidablePred P]
    (f : Nat → Int → Int) (m β : Int) {i : Nat} (hP : P i) :
    abMinStep α₀ P f (m, β, false) i =
      (min m (f i β), min β (min m (f i β)),
        decide (min β (min m (f i β)) ≤ α₀)) := by
  unfold abMinStep
  simp [hP]

/-- Knuth–Moore invariant of the maximizing loop: throughout the fold,
the running `max_eval` stays between `min M β` and `max α₀ M`, where
`M` is the exact running maximum of the unpruned traversal.  The
cutoff only ever skips children whose values can no longer cross the
window, so the same bounds hold of the final result. -/
theorem ab_fold_max (β α₀ : Int) (P : Nat → Prop) [DecidablePred P]
    (f : Nat → Int → Int) (v : Nat → Int) (_hαβ : α₀ < β) :
    ∀ (l : List Nat) (m α : Int) (done : Bool) (M : Int),
      (∀ i ∈ l, P i → ∀ α' : Int, α' < β →
        min (v i) β ≤ f i α' ∧ f i α' ≤ max α' (v i)) →
      m ≤ max α₀ M →
      min M β ≤ m →
      α₀ ≤ α →
      α ≤ max α₀ m →
      (done = false → α < β) →
      (done = true → β ≤ m) →
      (l.foldl (abMaxStep β P f) (m, α, done)).1 ≤
          max α₀ (l.foldl (fun acc i => if P i then max acc (v i) else acc) M) ∧
        min (l.foldl (fun acc i => if P i then max acc (v i) else acc) M) β ≤
          (l.foldl (abMaxStep β P f) (m, α, done)).1 := by
  intro l
  induction l with
  | nil =>
    intro m α done M hrec hA hB hα₀α hαm hdf hdt
    exact ⟨hA, hB⟩
  | cons x l ih =>
    intro m α done M hrec hA hB hα₀α hαm hdf hdt
    have hrec' : ∀ i ∈ l, P i → ∀ α' : Int, α' < β →
        min (v i) β ≤ f i α' ∧ f i α' ≤ max α' (v i) :=
      fun i hi => hrec i (List.mem_cons_of_mem x hi)
    rw [List.foldl_cons, List.foldl_cons]
    cases done with
    | true =>
      rw [abMaxStep_done]
      have hM1 : M ≤ (if P x then max M (v x) else M) := by
        split
        · exact le_max_left _ _
        · exact le_refl M
      apply ih _ _ _ _ hrec'
      · exact le_trans hA (max_le_max (le_refl α₀) hM1)
      · exact le_trans (min_le_right _ β) (hdt rfl)
      · exact hα₀α
      · exact hαm
      · intro h; exact Bool.noConfusion h
      · intro _; exact hdt rfl
    | false =>
      have hα : α < β := hdf rfl
      by_cases hPx : P x
      · rw [abMaxStep_P β P f m α hPx, if_pos hPx]
        obtain ⟨helo, hehi⟩ := hrec x (List.mem_cons_self x l) hPx α hα
        apply ih _ _ _ _ hrec'
        · -- max m e ≤ max α₀ (max M (v x))
          simp only [max_le_iff, le_max_iff] at hA hehi hαm ⊢
          omega
        · -- min (max M (v x)) β ≤ max m e
          simp only [min_le_iff, max_le_iff, le_max_iff] at hB helo ⊢
          omega
        · exact le_trans hα₀α (le_max_left _ _)
        · -- max α (max m e) ≤ max α₀ (max m e)
          simp only [max_le_iff, le_max_iff] at hαm ⊢
          omega
        · intro h
          have := of_decide_eq_false h
          omega
        · intro h
          have hc := of_decide_eq_true h
          simp only [le_max_iff] at hc ⊢
          omega
      · rw [abMaxStep_notP β P f m α hPx, if_neg hPx]
        exact ih _ _ _ _ hrec' hA hB hα₀α hαm hdf hdt

/-- Knuth–Moore invariant of the minimizing loop (mirror image). -/
theorem ab_fold_min (α₀ β₀ : Int) (P : Nat → Prop) [DecidablePred P]
    (f : Nat → Int → Int) (v : Nat → Int) (_hαβ : α₀ < β₀) :
    ∀ (l : List Nat) (m β : Int) (done : Bool) (M : Int),
      (∀ i ∈ l, P i → ∀ β' : Int, α₀ < β' →
        min (v i) β' ≤ f i β' ∧ f i β' ≤ max α₀ (v i)) →
      min β₀ M ≤ m →
      m ≤ max M α₀ →
      β ≤ β₀ →
      min β₀ m ≤ β →
      (done = false → α₀ < β) →
      (done = true → m ≤ α₀) →
      min (l.foldl (fun acc i => if P i then min acc (v i) else acc) M) β₀ ≤
          (l.foldl (abMinStep α₀ P f) (m, β, done)).1 ∧
        (l.foldl (abMinStep α₀ P f) (m, β, done)).1 ≤
          max α₀ (l.foldl (fun acc i => if P i then min acc (v i) else acc) M) := by
  intro l
  induction l with
  | nil =>
    intro m β done M hrec hA hB hβ₀β hβm hdf hdt
    rw [List.foldl_nil, List.foldl_nil]
    dsimp only
    constructor
    · simp only [min_le_iff] at hA ⊢
      omega
    · simp only [max_le_iff, le_max_iff] at hB ⊢
      omega
  | cons x l ih =>
    intro m β done M hrec hA hB hβ₀β hβm hdf hdt
    have hrec' : ∀ i ∈ l, P i → ∀ β' : Int, α₀ < β' →
        min (v i) β' ≤ f i β' ∧ f i β' ≤ max α₀ (v i) :=
      fun i hi => hrec i (List.mem_cons_of_mem x hi)
    rw [List.foldl_cons, List.foldl_cons]
    cases done with
    | true =>
      rw [abMinStep_done]
      have hM1 : (if P x then min M (v x) else M) ≤ M := by
        split
        · exact min_le_left _ _
        · exact le_refl M
      apply ih _ _ _ _ hrec'
      · exact le_trans (min_le_min (le_refl β₀) hM1) hA
      · exact le_trans (hdt rfl) (le_max_right _ α₀)
      · exact hβ₀β
      · exact hβm
      · intro h; exact Bool.noConfusion h
      · intro _; exact hdt rfl
    | false =>
      have hβ : α₀ < β := hdf rfl
      by_cases hPx : P x
      · rw [abMinStep_P α₀ P f m β hPx, if_pos hPx]
        obtain ⟨helo, hehi⟩ := hrec x (List.mem_cons_self x l) hPx β hβ
        apply ih _ _ _ _ hrec'
        · -- min β₀ (min M (v x)) ≤ min m e
          simp only [min_le_iff, le_min_iff] at hA helo hβm ⊢
          omega
        · -- min m e ≤ max (min M (v x)) α₀
          simp only [min_le_iff, le_min_iff, max_le_iff, le_max_iff] at hB hehi ⊢
          omega
        · exact le_trans (min_le_left _ _) hβ₀β
        · -- min β₀ (min m e) ≤ min β (min m e)
          simp only [le_min_iff, min_le_iff] at hβm ⊢
          omega
        · intro h
          have := of_decide_eq_false h
          omega
        · intro h
          have hc := of_decide_eq_true h
          simp only [min_le_iff] at hc ⊢
          omega
      · rw [abMinStep_notP α₀ P f m β hPx, if_neg hPx]
        exact ih _ _ _ _ hrec' hA hB hβ₀β hβm hdf hdt

/-- Knuth–Moore bounds for the whole search: on any window
`α < β`, the pruning search returns a value between
`min (plain value) β` and `max α (plain value)`. -/
theorem ab_eq_plain_aux :
    ∀ (n : Nat) (s : GameState) (d : Nat) (α β : Int) (maxi : Bool) (ai : Player),
      3 * d + (2 - s.pass_count) ≤ n → α < β →
      min (Engine.minimax_plain s d maxi ai) β ≤ Engine.minimax_ab s d α β maxi ai ∧
        Engine.minimax_ab s d α β maxi ai ≤
          max α (Engine.minimax_plain s d maxi ai) := by
  intro n
  induction n using Nat.strong_induction_on with
  | _ n IH =>
    intro s d α β maxi ai hm hαβ
    rw [Engine.minimax_ab.eq_def, Engine.minimax_plain.eq_def]
    dsimp only
    by_cases hterm : d = 0 ∨ Core.is_terminal s (Core.generate_legal_moves s)
        (Core.generate_legal_moves
          { s with current_player := switch_player s.current_player }) = true
    · rw [dif_pos hterm, dif_pos hterm]
      exact ⟨min_le_left _ _, le_max_right _ _⟩
    · rw [dif_neg hterm, dif_neg hterm]
      by_cases hpass : Core.count_discs (Core.generate_legal_moves s) = 0
      · rw [dif_pos hpass, dif_pos hpass]
        simp only [not_or, Bool.not_eq_true] at hterm
        have hpc := Engine.pass_count_lt_of_not_terminal hterm.2
        refine IH (n - 1) (by omega) _ _ _ _ _ _ ?_ hαβ
        simp only [Core.apply_pass]
        omega
      · rw [dif_neg hpass, dif_neg hpass]
        simp only [not_or, Bool.not_eq_true] at hterm
        have hd0 : d ≠ 0 := hterm.1
        cases maxi with
        | true =>
          have hchild : ∀ i ∈ List.range 64,
              (Core.generate_legal_moves s &&& (1 <<< i) ≠ 0) →
              ∀ α' : Int, α' < β →
              min (Engine.minimax_plain (Core.apply_move s i) (d - 1) false ai) β ≤
                  Engine.minimax_ab (Core.apply_move s i) (d - 1) α' β false ai ∧
                Engine.minimax_ab (Core.apply_move s i) (d - 1) α' β false ai ≤
                  max α' (Engine.minimax_plain (Core.apply_move s i) (d - 1) false ai) := by
            intro i _ _ α' hα'
            refine IH (n - 1) (by omega) _ _ _ _ _ _ ?_ hα'
            rw [apply_move_pass_count]
            omega
          have hmain := ab_fold_max β α
            (fun i => Core.generate_legal_moves s &&& (1 <<< i) ≠ 0)
            (fun i α' => Engine.minimax_ab (Core.apply_move s i) (d - 1) α' β false ai)
            (fun i => Engine.minimax_plain (Core.apply_move s i) (d - 1) false ai) hαβ
            (List.range 64) INT_MIN α false INT_MIN hchild
            (le_max_right α INT_MIN) (min_le_left INT_MIN β) (le_refl α)
            (le_max_left α INT_MIN) (fun _ => hαβ) (fun h => Bool.noConfusion h)
          exact ⟨hmain.2, hmain.1⟩
        | false =>
          have hchild : ∀ i ∈ List.range 64,
              (Core.generate_legal_moves s &&& (1 <<< i) ≠ 0) →
              ∀ β' : Int, α < β' →
              min (Engine.minimax_plain (Core.apply_move s i) (d - 1) true ai) β' ≤
                  Engine.minimax_ab (Core.apply_move s i) (d - 1) α β' true ai ∧
                Engine.minimax_ab (Core.apply_move s i) (d - 1) α β' true ai ≤
                  max α (Engine.minimax_plain (Core.apply_move s i) (d - 1) true ai) := by
            intro i _ _ β' hβ'
            refine IH (n - 1) (by omega) _ _ _ _ _ _ ?_ hβ'
            rw [apply_move_pass_count]
            omega
          have hmain := ab_fold_min α β
            (fun i => Core.generate_legal_moves s &&& (1 <<< i) ≠ 0)
            (fun i β' => Engine.minimax_ab (Core.apply_move s i) (d - 1) α β' true ai)
            (fun i => Engine.minimax_plain (Core.apply_move s i) (d - 1) true ai) hαβ
            (List.range 64) INT_MAX β false INT_MAX hchild
            (min_le_right β INT_MAX) (le_max_left INT_MAX α) (le_refl β)
            (min_le_left β INT_MAX) (fun _ => hαβ) (fun h => Bool.noConfusion h)
          exact ⟨hmain.1, hmain.2⟩

/-- On the full `(INT_MIN, INT_MAX)` window the pruning search equals
the unpruned traversal. -/
theorem minimax_ab_eq_plain (s : GameState) (d : Nat) (maxi : Bool) (ai : Player)
    (h64 : wf64 s) :
    Engine.minimax_ab s d INT_MIN INT_MAX maxi ai =
      Engine.minimax_plain s d maxi ai := by
  have hb := minimax_plain_bound (3 * d + 2) s d maxi ai (by omega) h64
  have h := ab_eq_plain_aux (3 * d + 2) s d INT_MIN INT_MAX maxi ai (by omega)
    (by norm_num [INT_MIN, INT_MAX])
  have hlo : min (Engine.minimax_plain s d maxi ai) INT_MAX =
      Engine.minimax_plain s d maxi ai := by
    apply min_eq_left
    have : (30000 : Int) ≤ INT_MAX := by norm_num [INT_MAX]
    omega
  have hhi : max INT_MIN (Engine.minimax_plain s d maxi ai) =
      Engine.minimax_plain s d maxi ai := by
    apply max_eq_right
    have : INT_MIN ≤ (-30000 : Int) := by norm_num [INT_MIN]
    omega
  rw [hlo] at h
  rw [hhi] at h
  omega


theorem find_best_move_eq (s : GameState) (d : Nat) :
    Engine.find_best_move s d =
      if Core.count_discs (Core.generate_legal_moves s) = 0 then -1
      else ((List.range 64).foldl (fbStep s d) (-2, INT_MIN)).1 := rfl

/-- Root scores are real evaluations, strictly above the `INT_MIN`
seed. -/
theorem rootScore_gt_intmin {s : GameState} {d : Nat} {i : Nat}
    (h64 : wf64 s) (hi : i < 64) : INT_MIN < rootScore s d i := by
  unfold rootScore
  rw [minimax_ab_eq_plain _ _ _ _ (apply_move_wf64 h64 hi)]
  have hb := minimax_plain_bound (3 * (d - 1) + 2) (Core.apply_move s i) (d - 1) false
    s.current_player (by omega) (apply_move_wf64 h64 hi)
  have : INT_MIN < (-30000 : Int) := by norm_num [INT_MIN]
  omega

/-- Invariant of the root scan: after the first `k` cells, the
accumulator is still the seed if no legal cell was seen, and otherwise
holds the first strict argmax of the scores over the legal cells
scanned so far. -/
theorem fb_fold_invariant (s : GameState) (d : Nat) (h64 : wf64 s) :
    ∀ k : Nat, k ≤ 64 →
      ((¬∃ i, i < k ∧ Core.generate_legal_moves s &&& (1 <<< i) ≠ 0) ∧
        (List.range k).foldl (fbStep s d) (-2, INT_MIN) = (-2, INT_MIN)) ∨
      (∃ j, j < k ∧ Core.generate_legal_moves s &&& (1 <<< j) ≠ 0 ∧
        (List.range k).foldl (fbStep s d) (-2, INT_MIN) = ((j : Int), rootScore s d j) ∧
        (∀ i, i < k → Core.generate_legal_moves s &&& (1 <<< i) ≠ 0 →
          rootScore s d i ≤ rootScore s d j) ∧
        (∀ i, i < k → Core.generate_legal_moves s &&& (1 <<< i) ≠ 0 → i < j →
          rootScore s d i < rootScore s d j)) := by
  intro k
  induction k with
  | zero =>
    intro _
    left
    constructor
    · rintro ⟨i, hi, _⟩
      omega
    · rfl
  | succ k ih =>
    intro hk
    have hk' : k ≤ 64 := by omega
    rw [List.range_succ, List.foldl_append]
    rcases ih hk' with ⟨hnone, hacc⟩ | ⟨j, hjk, hjP, hacc, hmax, hstrict⟩
    · rw [hacc]
      by_cases hPk : Core.generate_legal_moves s &&& (1 <<< k) ≠ 0
      · right
        refine ⟨k, by omega, hPk, ?_, ?_, ?_⟩
        · show fbStep s d (-2, INT_MIN) k = _
          unfold fbStep
          rw [if_pos hPk, if_pos (rootScore_gt_intmin h64 (by omega))]
        · intro i hik hPi
          have hik' : i = k := by
            by_contra hne
            exact hnone ⟨i, by omega, hPi⟩
          subst hik'
          exact le_refl _
        · intro i hik hPi hij
          exact absurd ⟨i, by omega, hPi⟩ hnone
      · left
        constructor
        · rintro ⟨i, hi, hPi⟩
          rcases Nat.lt_or_ge i k with h | h
          · exact hnone ⟨i, h, hPi⟩
          · have : i = k := by omega
            subst this
            exact hPk hPi
        · show fbStep s d (-2, INT_MIN) k = _
          unfold fbStep
          rw [if_neg hPk]
    · rw [hacc]
      by_cases hPk : Core.generate_legal_moves s &&& (1 <<< k) ≠ 0
      · by_cases himp : rootScore s d k > rootScore s d j
        · right
          refine ⟨k, by omega, hPk, ?_, ?_, ?_⟩
          · show fbStep s d ((j : Int), rootScore s d j) k = _
            unfold fbStep
            rw [if_pos hPk, if_pos himp]
          · intro i hik hPi
            rcases Nat.lt_or_ge i k with h | h
            · exact le_of_lt (lt_of_le_of_lt (hmax i h hPi) himp)
            · have : i = k := by omega
              subst this
              exact le_refl _
          · intro i hik hPi _
            rcases Nat.lt_or_ge i k with h | h
            · exact lt_of_le_of_lt (hmax i h hPi) himp
            · omega
        · right
          refine ⟨j, by omega, hjP, ?_, ?_, ?_⟩
          · show fbStep s d ((j : Int), rootScore s d j) k = _
            unfold fbStep
            rw [if_pos hPk, if_neg himp]
          · intro i hik hPi
            rcases Nat.lt_or_ge i k with h | h
            · exact hmax i h hPi
            · have : i = k := by omega
              subst this
              omega
          · intro i hik hPi hij
            exact hstrict i (by omega) hPi hij
      · right
        have hmax' : ∀ i, i < k + 1 → Core.generate_legal_moves s &&& (1 <<< i) ≠ 0 →
            rootScore s d i ≤ rootScore s d j := by
          intro i hik hPi
          rcases Nat.lt_or_ge i k with h | h
          · exact hmax i h hPi
          · have : i = k := by omega
            subst this
            exact absurd hPi hPk
        refine ⟨j, by omega, hjP, ?_, hmax', ?_⟩
        · show fbStep s d ((j : Int), rootScore s d j) k = _
          unfold fbStep
          rw [if_neg hPk]
        · intro i hik hPi hij
          rcases Nat.lt_or_ge i k with h | h
          · exact hstrict i h hPi hij
          · have : i = k := by omega
            subst this
            exact absurd hPi hPk

/-- `is_terminal` rejects a position that is not full, has fewer than
two consecutive passes, keeps both colors on the board, and leaves
the opponent at least one move. -/
theorem is_terminal_false {s : GameState} (black_legal : Nat) {white_legal : Nat}
    (hfull : Core.count_discs s.black_discs + Core.count_discs s.white_discs ≠ 64)
    (hpc : s.pass_count < 2)
    (hb : s.black_discs ≠ 0) (hw : s.white_discs ≠ 0)
    (hopp : white_legal ≠ 0) :
    Core.is_terminal s black_legal white_legal = false := by
  have hcb : Core.count_discs s.black_discs ≠ 0 := by
    rw [Ne, CountFacts.count_discs_eq_zero_iff]
    exact hb
  have hcw : Core.count_discs s.white_discs ≠ 0 := by
    rw [Ne, CountFacts.count_discs_eq_zero_iff]
    exact hw
  have hco : Core.count_discs white_legal ≠ 0 := by
    rw [Ne, CountFacts.count_discs_eq_zero_iff]
    exact hopp
  unfold Core.is_terminal
  dsimp only
  rw [if_neg hfull, if_neg (by omega : ¬s.pass_count ≥ 2),
    if_neg (by tauto : ¬(Core.count_discs s.black_discs = 0 ∨
      Core.count_discs s.white_discs = 0)),
    if_neg (by tauto : ¬(Core.count_discs black_legal = 0 ∧
      Core.count_discs white_legal = 0 ∧
      Core.count_discs s.black_discs + Core.count_discs s.white_discs < 64))]

/-- The forced-pass unfolding of `minimax_ab`: with no legal move and
a non-terminal position, the search recurses through `apply_pass` at
the same depth with the maximizing flag flipped. -/
theorem minimax_ab_pass_step {s : GameState} (d : Nat) (α β : Int) (maxi : Bool)
    (ai : Player) (hd : d ≠ 0)
    (hlegal : Core.generate_legal_moves s = 0)
    (hterm : Core.is_terminal s (Core.generate_legal_moves s)
      (Core.generate_legal_moves
        { s with current_player := switch_player s.current_player }) = false) :
    Engine.minimax_ab s d α β maxi ai =
      Engine.minimax_ab (Core.apply_pass s) d α β (!maxi) ai := by
  rw [Engine.minimax_ab.eq_def]
  dsimp only
  rw [dif_neg (by rw [hterm]; simp [hd] : ¬(d = 0 ∨ Core.is_terminal s
      (Core.generate_legal_moves s)
      (Core.generate_legal_moves
        { s with current_player := switch_player s.current_player }) = true)),
    dif_pos (by rw [hlegal]; exact CountFacts.count_discs_zero)]

end SearchFacts


/-! ## The claims -/

/-- **C1** (code_bug evidence).  The claim says neither
`generate_legal_moves` nor `get_flips_for_move` ever lets a ray wrap
around a board edge, so both should agree with the edge-stopping grid
walk `Spec.specLegalMoves` / `Spec.specFlipsForMove`.  On `wrapState`
the code marks B1 (index 1) legal and flips A2 (bit 8): its southwest
ray B1 → A2 → "H2" wraps from column A to column H because the `+7`
direction is masked with `MASK_H` instead of `MASK_A`.  The
edge-stopping reference finds no capture from B1. -/
theorem C1_wraparound_failing_input :
    ((Core.generate_legal_moves wrapState).testBit 1 = true ∧
      (Spec.specLegalMoves wrapState).testBit 1 = false) ∧
    (Core.get_flips_for_move wrapState 1 = 1 <<< 8 ∧
      Spec.specFlipsForMove wrapState 1 = 0) := by
  constructor
  · constructor
    · decide
    · decide
  · constructor
    · decide
    · decide

/-- **C2** (confirmed).  For every 64-bit snapshot and every depth,
the alpha-beta search on the full `(INT_MIN, INT_MAX)` window returns
exactly the value of the unpruned minimax traversal of the same tree
(`minimax_plain`: same leaf rule, same forced-pass rule, children in
ascending index order). -/
theorem C2_alphabeta_equals_minimax (s : GameState) (d : Nat) (maxi : Bool)
    (ai : Player) (h64 : wf64 s) :
    Engine.minimax_ab s d INT_MIN INT_MAX maxi ai =
      Engine.minimax_plain s d maxi ai :=
  SearchFacts.minimax_ab_eq_plain s d maxi ai h64

theorem C2_witness :
    wf64 initialState ∧
      Engine.minimax_ab initialState 2 INT_MIN INT_MAX true Player.Black =
        Engine.minimax_plain initialState 2 true Player.Black :=
  ⟨by decide, C2_alphabeta_equals_minimax initialState 2 true Player.Black (by decide)⟩

/-- **C3** (counterexample).  The claim: the mobility component that
`evaluate (s, p)` credits to `p` is `5 ×` the legal-move count of
`p`'s color (mobility per evaluated color, as in
`evaluate_spec_mobility`).  On `stuckWhiteState` (White to move, White
has 0 moves, Black has 1) with perspective Black the code credits
`5 × 0` where the claim demands `5 × 1`, so the two evaluators
differ. -/
theorem C3_counterexample :
    Engine.evaluate stuckWhiteState Player.Black ≠
      Engine.evaluate_spec_mobility stuckWhiteState Player.Black := by
  decide

/-- **C3** (amended).  The mobility component `evaluate (s, p)`
credits to `p` is `5 ×` the legal-move count of `s.current_player`
(and it debits `5 ×` the count of the color opposite
`s.current_player`), independently of `p`; the per-color attribution
demanded by the claim therefore holds exactly when
`p = s.current_player`. -/
theorem C3_amended_mobility (s : GameState) (p : Player) :
    (Engine.evaluate s p =
      (EvalFacts.currentMobility s * 5 + EvalFacts.posFor s p +
          EvalFacts.discTerm s p) -
        (EvalFacts.opponentMobility s * 5 + EvalFacts.posFor s (switch_player p))) ∧
    (p = s.current_player →
      Engine.evaluate s p = Engine.evaluate_spec_mobility s p) := by
  constructor
  · exact EvalFacts.evaluate_decomp s p
  · intro hp
    subst hp
    rfl

theorem C3_witness :
    (Engine.evaluate stuckWhiteState Player.White =
      (EvalFacts.currentMobility stuckWhiteState * 5 +
          EvalFacts.posFor stuckWhiteState Player.White +
          EvalFacts.discTerm stuckWhiteState Player.White) -
        (EvalFacts.opponentMobility stuckWhiteState * 5 +
          EvalFacts.posFor stuckWhiteState (switch_player Player.White))) ∧
      Engine.evaluate stuckWhiteState Player.White =
        Engine.evaluate_spec_mobility stuckWhiteState Player.White :=
  ⟨(C3_amended_mobility stuckWhiteState Player.White).1,
    (C3_amended_mobility stuckWhiteState Player.White).2 rfl⟩

/-- **C4** (counterexample).  The claim
`evaluate (s, Black) = -evaluate (s, White)` fails on
`stuckWhiteState`: the two mobility terms do not flip sign with the
perspective, and here they differ between the colors. -/
theorem C4_counterexample :
    Engine.evaluate stuckWhiteState Player.Black ≠
      -Engine.evaluate stuckWhiteState Player.White := by
  decide

/-- **C4** (amended).  The evaluator is antisymmetric up to the
mobility defect: the positional and disc-differential parts flip sign
with the perspective, while the mobility part is charged from
`s.current_player`'s side in both calls, so the two perspectives sum
to `10 × (current player's mobility − opponent's mobility)` instead
of `0`. -/
theorem C4_amended_antisymmetry (s : GameState) :
    Engine.evaluate s Player.Black + Engine.evaluate s Player.White =
      10 * (EvalFacts.currentMobility s - EvalFacts.opponentMobility s) := by
  rw [EvalFacts.evaluate_decomp s Player.Black, EvalFacts.evaluate_decomp s Player.White]
  have hBW : switch_player Player.Black = Player.White := rfl
  have hWB : switch_player Player.White = Player.Black := rfl
  have hd : EvalFacts.discTerm s Player.White = -EvalFacts.discTerm s Player.Black := by
    rw [← hBW, EvalFacts.discTerm_switch]
  rw [hBW, hWB, hd]
  ring

/-- **C5** (counterexample).  The claim assigns `-20` to the diagonal
neighbors of the corners (the X-squares); the table actually assigns
them `-30` (index 9 = B2 is the diagonal neighbor of corner A1), and
`-20` to the orthogonal neighbors instead. -/
theorem C5_counterexample : Engine.POSITION_WEIGHTS.getD 9 0 ≠ -20 := by
  decide

/-- **C5** (amended).  The 64-entry table assigns 200 to the four
corners, `-30` to the four diagonal corner neighbors (X-squares),
`-20` to the eight orthogonal corner neighbors, `10` to the edge
cells two steps from a corner, `5` to the remaining edge cells, `-5`
to the remaining cells of the second ring, `2` to the remaining cells
of the third ring and `1` to the four center cells — equivalently, it
equals the closed form `quadrantWeight`, which is symmetric across
all four quadrants by rotation/reflection (it depends only on the
unordered pair of edge distances). -/
theorem C5_amended_table :
    (∀ i : Fin 64,
      Engine.POSITION_WEIGHTS.getD i.val 0 = quadrantWeight (i.val / 8) (i.val % 8)) ∧
    (∀ r c : Fin 8,
      quadrantWeight r.val c.val = quadrantWeight (7 - r.val) c.val ∧
      quadrantWeight r.val c.val = quadrantWeight r.val (7 - c.val) ∧
      quadrantWeight r.val c.val = quadrantWeight c.val r.val) := by
  constructor
  · decide
  · decide

/-- **C6** (confirmed).  A snapshot where the side to move is stuck
but the opponent can move — with the board not full, fewer than two
consecutive passes and both colors on the board — is not terminal,
and at nonzero depth `minimax_ab` recurses on `apply_pass` at the
*same* depth with the maximizing flag flipped. -/
theorem C6_forced_pass (s : GameState) (d : Nat) (α β : Int) (maxi : Bool) (ai : Player)
    (hlegal : Core.generate_legal_moves s = 0)
    (hopp : Core.generate_legal_moves
      { s with current_player := switch_player s.current_player } ≠ 0)
    (hfull : Core.count_discs s.black_discs + Core.count_discs s.white_discs ≠ 64)
    (hpc : s.pass_count < 2)
    (hb : s.black_discs ≠ 0) (hw : s.white_discs ≠ 0) :
    Core.is_terminal s (Core.generate_legal_moves s)
        (Core.generate_legal_moves
          { s with current_player := switch_player s.current_player }) = false ∧
      (d ≠ 0 → Engine.minimax_ab s d α β maxi ai =
        Engine.minimax_ab (Core.apply_pass s) d α β (!maxi) ai) := by
  have hterm := SearchFacts.is_terminal_false (Core.generate_legal_moves s) hfull hpc hb hw hopp
  exact ⟨hterm, fun hd => SearchFacts.minimax_ab_pass_step d α β maxi ai hd hlegal hterm⟩

theorem C6_witness :
    Core.is_terminal stuckWhiteState (Core.generate_legal_moves stuckWhiteState)
        (Core.generate_legal_moves
          { stuckWhiteState with
            current_player := switch_player stuckWhiteState.current_player }) = false ∧
      Engine.minimax_ab stuckWhiteState 1 INT_MIN INT_MAX true Player.Black =
        Engine.minimax_ab (Core.apply_pass stuckWhiteState) 1 INT_MIN INT_MAX false
          Player.Black := by
  have h := C6_forced_pass stuckWhiteState 1 INT_MIN INT_MAX true Player.Black
    (by decide) (by decide) (by decide) (by decide) (by decide) (by decide)
  exact ⟨h.1, h.2 (by decide)⟩

/-- **C7** (confirmed).  `find_best_move` returns the pass sentinel
`-1` exactly when there is no legal move; otherwise it returns the
lowest-index legal move whose full-window child score
(`rootScore`: minimax of the child with window
`(INT_MIN, INT_MAX)`, minimizing next, perspective = the mover) is
strictly greatest among the moves scanned in ascending index order —
ties keep the earlier move, so the result is deterministic. -/
theorem C7_find_best_move_spec (s : GameState) (d : Nat) (h64 : wf64 s) (_hd : 1 ≤ d) :
    (Engine.find_best_move s d = -1 ↔ Core.generate_legal_moves s = 0) ∧
    (Core.generate_legal_moves s ≠ 0 →
      ∃ j : Nat, Engine.find_best_move s d = (j : Int) ∧
        (Core.generate_legal_moves s).testBit j = true ∧
        (∀ i : Nat, (Core.generate_legal_moves s).testBit i = true →
          SearchFacts.rootScore s d i ≤ SearchFacts.rootScore s d j) ∧
        (∀ i : Nat, (Core.generate_legal_moves s).testBit i = true → i < j →
          SearchFacts.rootScore s d i < SearchFacts.rootScore s d j)) := by
  have hmain : Core.generate_legal_moves s ≠ 0 →
      ∃ j : Nat, Engine.find_best_move s d = (j : Int) ∧
        (Core.generate_legal_moves s).testBit j = true ∧
        (∀ i : Nat, (Core.generate_legal_moves s).testBit i = true →
          SearchFacts.rootScore s d i ≤ SearchFacts.rootScore s d j) ∧
        (∀ i : Nat, (Core.generate_legal_moves s).testBit i = true → i < j →
          SearchFacts.rootScore s d i < SearchFacts.rootScore s d j) := by
    intro hne
    have hcount : Core.count_discs (Core.generate_legal_moves s) ≠ 0 := by
      rw [Ne, CountFacts.count_discs_eq_zero_iff]
      exact hne
    rcases SearchFacts.fb_fold_invariant s d h64 64 (le_refl 64) with
      ⟨hnone, _⟩ | ⟨j, _, hjP, hacc, hmax, hstrict⟩
    · exfalso
      obtain ⟨j, hj64, hjP⟩ := SearchFacts.exists_legal_cell hcount
      exact hnone ⟨j, hj64, hjP⟩
    · refine ⟨j, ?_, (SearchFacts.legal_and_iff _ j).mp hjP, ?_, ?_⟩
      · rw [SearchFacts.find_best_move_eq, if_neg hcount, hacc]
      · intro i hi
        exact hmax i (RuleFacts.legal_lt_64 hi) ((SearchFacts.legal_and_iff _ i).mpr hi)
      · intro i hi hij
        exact hstrict i (RuleFacts.legal_lt_64 hi)
          ((SearchFacts.legal_and_iff _ i).mpr hi) hij
  constructor
  · constructor
    · intro hfb
      by_contra hne
      obtain ⟨j, hj, _⟩ := hmain hne
      rw [hfb] at hj
      omega
    · intro h0
      rw [SearchFacts.find_best_move_eq, if_pos]
      rw [h0]
      exact CountFacts.count_discs_zero
  · exact hmain

theorem C7_witness :
    wf64 initialState ∧ 1 ≤ 1 ∧
      ((Engine.find_best_move initialState 1 = -1 ↔
          Core.generate_legal_moves initialState = 0) ∧
        (Core.generate_legal_moves initialState ≠ 0 →
          ∃ j : Nat, Engine.find_best_move initialState 1 = (j : Int) ∧
            (Core.generate_legal_moves initialState).testBit j = true ∧
            (∀ i : Nat, (Core.generate_legal_moves initialState).testBit i = true →
              SearchFacts.rootScore initialState 1 i ≤
                SearchFacts.rootScore initialState 1 j) ∧
            (∀ i : Nat, (Core.generate_legal_moves initialState).testBit i = true →
              i < j →
              SearchFacts.rootScore initialState 1 i <
                SearchFacts.rootScore initialState 1 j))) :=
  ⟨by decide, le_refl 1,
    C7_find_best_move_spec initialState 1 (by decide) (le_refl 1)⟩

/-- **C8** (confirmed).  On a disjoint 64-bit snapshot, applying a
legal move raises the total disc count by exactly one: the mover
gains `1 + |flips|` discs and the opponent loses exactly `|flips|`;
and a pass never touches occupancy. -/
theorem C8_conservation (s : GameState) (m : Nat) (h64 : wf64 s)
    (hdisj : s.black_discs &&& s.white_discs = 0)
    (hleg : (Core.generate_legal_moves s).testBit m = true) :
    (Core.count_discs (Core.apply_move s m).black_discs +
        Core.count_discs (Core.apply_move s m).white_discs =
      Core.count_discs s.black_discs + Core.count_discs s.white_discs + 1) ∧
    (Core.count_discs (RuleFacts.board_of (Core.apply_move s m) s.current_player) =
      Core.count_discs (RuleFacts.board_of s s.current_player) + 1 +
        Core.count_discs (Core.get_flips_for_move s m)) ∧
    (Core.count_discs (RuleFacts.board_of s (switch_player s.current_player)) =
      Core.count_discs
          (RuleFacts.board_of (Core.apply_move s m) (switch_player s.current_player)) +
        Core.count_discs (Core.get_flips_for_move s m)) ∧
    (∀ t : GameState, (Core.apply_pass t).black_discs = t.black_discs ∧
      (Core.apply_pass t).white_discs = t.white_discs) := by
  have h := RuleFacts.apply_move_counts h64 hdisj hleg
  refine ⟨?_, h.1, h.2, fun t => ⟨rfl, rfl⟩⟩
  have h1 := h.1
  have h2 := h.2
  cases hp : s.current_player
  · have e1 : RuleFacts.board_of (Core.apply_move s m) s.current_player =
        (Core.apply_move s m).black_discs := by
      unfold RuleFacts.board_of
      rw [hp]
      simp
    have e2 : RuleFacts.board_of s s.current_player = s.black_discs := by
      unfold RuleFacts.board_of
      rw [hp]
      simp
    have e3 : RuleFacts.board_of s (switch_player s.current_player) = s.white_discs := by
      unfold RuleFacts.board_of switch_player
      rw [hp]
      simp
    have e4 : RuleFacts.board_of (Core.apply_move s m) (switch_player s.current_player) =
        (Core.apply_move s m).white_discs := by
      unfold RuleFacts.board_of switch_player
      rw [hp]
      simp
    rw [e1, e2] at h1
    rw [e3, e4] at h2
    omega
  · have e1 : RuleFacts.board_of (Core.apply_move s m) s.current_player =
        (Core.apply_move s m).white_discs := by
      unfold RuleFacts.board_of
      rw [hp]
      simp
    have e2 : RuleFacts.board_of s s.current_player = s.white_discs := by
      unfold RuleFacts.board_of
      rw [hp]
      simp
    have e3 : RuleFacts.board_of s (switch_player s.current_player) = s.black_discs := by
      unfold RuleFacts.board_of switch_player
      rw [hp]
      simp
    have e4 : RuleFacts.board_of (Core.apply_move s m) (switch_player s.current_player) =
        (Core.apply_move s m).black_discs := by
      unfold RuleFacts.board_of switch_player
      rw [hp]
      simp
    rw [e1, e2] at h1
    rw [e3, e4] at h2
    omega

theorem C8_witness :
    Core.count_discs (Core.apply_move initialState 20).black_discs +
        Core.count_discs (Core.apply_move initialState 20).white_discs =
      Core.count_discs initialState.black_discs +
        Core.count_discs initialState.white_discs + 1 :=
  (C8_conservation initialState 20 (by decide) (by decide) (by decide)).1

/-- **C9** (confirmed).  The occupancy-disjointness invariant holds in
the start position and is preserved by `apply_move` at any legal cell
and by `apply_pass`; consequently it holds of every snapshot reachable
from the start state. -/
theorem C9_disjointness_invariant :
    (initialState.black_discs &&& initialState.white_discs = 0) ∧
    (∀ (s : GameState) (m : Nat), s.black_discs &&& s.white_discs = 0 →
      (Core.generate_legal_moves s).testBit m = true →
      (Core.apply_move s m).black_discs &&& (Core.apply_move s m).white_discs = 0) ∧
    (∀ s : GameState, s.black_discs &&& s.white_discs = 0 →
      (Core.apply_pass s).black_discs &&& (Core.apply_pass s).white_discs = 0) ∧
    (∀ s : GameState, RuleFacts.Reachable s →
      s.black_discs &&& s.white_discs = 0) := by
  have hinit : initialState.black_discs &&& initialState.white_discs = 0 := by decide
  have hmove : ∀ (s : GameState) (m : Nat), s.black_discs &&& s.white_discs = 0 →
      (Core.generate_legal_moves s).testBit m = true →
      (Core.apply_move s m).black_discs &&& (Core.apply_move s m).white_discs = 0 :=
    fun s m hd hl => RuleFacts.apply_move_disjoint hd hl
  have hpass : ∀ s : GameState, s.black_discs &&& s.white_discs = 0 →
      (Core.apply_pass s).black_discs &&& (Core.apply_pass s).white_discs = 0 :=
    fun s hd => hd
  refine ⟨hinit, hmove, hpass, ?_⟩
  intro s hreach
  induction hreach with
  | init => exact hinit
  | move hr hl ih => exact hmove _ _ ih hl
  | pass hr ih => exact hpass _ ih

theorem C9_witness :
    (Core.apply_move initialState 20).black_discs &&&
      (Core.apply_move initialState 20).white_discs = 0 :=
  C9_disjointness_invariant.2.1 initialState 20 (by decide) (by decide)

/-- **C10** (confirmed).  Calling `apply_move` on an empty but
*illegal* cell signals no error and produces no distinguished result:
the flip set is empty, the mover's disc is still placed, the player
switches, the pass counter resets, and the total disc count grows by
one with no captures. -/
theorem C10_illegal_move_no_error (s : GameState) (m : Nat) (h64 : wf64 s)
    (hm : m < 64)
    (hempty : (s.black_discs ||| s.white_discs).testBit m = false)
    (hnotleg : (Core.generate_legal_moves s).testBit m = false) :
    Core.get_flips_for_move s m = 0 ∧
    (Core.apply_move s m).black_discs =
      (if s.current_player = Player.Black then s.black_discs ||| (1 <<< m)
        else s.black_discs) ∧
    (Core.apply_move s m).white_discs =
      (if s.current_player = Player.Black then s.white_discs
        else s.white_discs ||| (1 <<< m)) ∧
    (Core.apply_move s m).current_player = switch_player s.current_player ∧
    (Core.apply_move s m).pass_count = 0 ∧
    Core.count_discs (Core.apply_move s m).black_discs +
        Core.count_discs (Core.apply_move s m).white_discs =
      Core.count_discs s.black_discs + Core.count_discs s.white_discs + 1 := by
  rw [Nat.testBit_or] at hempty
  have hb : s.black_discs.testBit m = false := by
    cases h1 : s.black_discs.testBit m
    · rfl
    · rw [h1] at hempty; simp at hempty
  have hw : s.white_discs.testBit m = false := by
    cases h1 : s.white_discs.testBit m
    · rfl
    · rw [h1] at hempty
      rw [Bool.or_true] at hempty
      exact hempty
  have hown : (RuleFacts.own_of s).testBit m = false := by
    unfold RuleFacts.own_of
    split
    · exact hb
    · exact hw
  have hopp : (RuleFacts.opp_of s).testBit m = false := by
    unfold RuleFacts.opp_of
    split
    · exact hw
    · exact hb
  have hflips : Core.get_flips_for_move s m = 0 :=
    RuleFacts.flips_eq_zero_of_not_legal hm hown hopp hnotleg
  have hmask : ∀ x : Nat, x < 2 ^ 64 → x &&& ((0 : Nat) ^^^ UINT64_MAX) = x := by
    intro x hx
    rw [Nat.zero_xor, BitFacts.uint64_max_eq, Nat.and_pow_two_sub_one_eq_mod]
    exact Nat.mod_eq_of_lt hx
  have h2m : (2 : Nat) ^ m < 2 ^ 64 := Nat.pow_lt_pow_right (by norm_num) hm
  have hcb : s.black_discs &&& (1 <<< m) = 0 := by
    rw [Nat.one_shiftLeft]
    exact RuleFacts.and_two_pow_of_testBit_false hb
  have hcw : s.white_discs &&& (1 <<< m) = 0 := by
    rw [Nat.one_shiftLeft]
    exact RuleFacts.and_two_pow_of_testBit_false hw
  have hcountb :
      Core.count_discs (s.black_discs ||| (1 <<< m)) =
        Core.count_discs s.black_discs + 1 := by
    rw [Nat.one_shiftLeft] at hcb ⊢
    rw [CountFacts.count_discs_or_disjoint h64.1 h2m hcb,
      CountFacts.count_discs_two_pow hm]
  have hcountw :
      Core.count_discs (s.white_discs ||| (1 <<< m)) =
        Core.count_discs s.white_discs + 1 := by
    rw [Nat.one_shiftLeft] at hcw ⊢
    rw [CountFacts.count_discs_or_disjoint h64.2 h2m hcw,
      CountFacts.count_discs_two_pow hm]
  unfold Core.apply_move
  rw [hflips]
  by_cases hp : s.current_player = Player.Black
  · simp only [hp, reduceIte]
    refine ⟨by trivial, ?_, ?_, by trivial, by trivial, ?_⟩
    · rw [Nat.or_zero]
    · exact hmask s.white_discs h64.2
    · rw [Nat.or_zero, hmask s.white_discs h64.2, hcountb]
      omega
  · simp only [hp, reduceIte]
    refine ⟨by trivial, ?_, ?_, by trivial, by trivial, ?_⟩
    · exact hmask s.black_discs h64.1
    · rw [Nat.or_zero]
    · rw [Nat.or_zero, hmask s.black_discs h64.1, hcountw]
      omega

theorem C10_witness :
    Core.get_flips_for_move initialState 0 = 0 ∧
      (Core.apply_move initialState 0).black_discs =
        initialState.black_discs ||| (1 <<< 0) ∧
      Core.count_discs (Core.apply_move initialState 0).black_discs +
          Core.count_discs (Core.apply_move initialState 0).white_discs =
        Core.count_discs initialState.black_discs +
          Core.count_discs initialState.white_discs + 1 := by
  have h := C10_illegal_move_no_error initialState 0 (by decide) (by decide)
    (by decide) (by decide)
  exact ⟨h.1, h.2.1, h.2.2.2.2.2⟩
